import Mathlib

/-!
# XvW: cross validation versus walkforward

A shallow embedding of `XVW/XvW.CPP` and theorems about it.

Conventions of the embedding.

* A `double` is an element of an arbitrary linear ordered field `α`
  (exact arithmetic); the definitions are computable and can be run on `ℚ`.
* The two-column matrix `data` (`ncols = 2`) is a list of cases
  `(indicator, target)`; a pointer `data + ncols * k` is the case index `k`.
* `int` variables that are non-negative in every reachable state are natural
  numbers; the expressions that may go negative (copy lengths, the reduced
  `ncases`, `ntrain - omit`) are integers.
* `unsigned int` and `unsigned _int64` values are natural numbers, every
  operation that can wrap carries an explicit `% 2 ^ 32` or `% 2 ^ 64`.
* A read or write outside an array, and a `memcpy` with a negative length,
  make the embedded routine return `none`.
-/

namespace XvW

/-! ## Random generator (lines 86-114) -/

/-- The process-wide state of the generator: the table `Q`, `carry`, the two
`MWC256_*` statics and the `static unsigned char i` of `RAND32M`. -/
structure MWC256 where
  Q : List Nat
  carry : Nat
  MWC256_initialized : Bool
  MWC256_seed : Int
  i : Nat
  deriving DecidableEq, Repr

/-- The static initialisers: `Q` zeroed, `carry=362436`, not initialised,
seed `123456789`, `i=255`. -/
def MWC256.startup : MWC256 :=
  { Q := List.replicate 256 0, carry := 362436, MWC256_initialized := false,
    MWC256_seed := 123456789, i := 255 }

/-- `RAND32M_seed`: store the seed and clear the flag. -/
def RAND32M_seed (g : MWC256) (iseed : Int) : MWC256 :=
  { g with MWC256_seed := iseed, MWC256_initialized := false }

/-- One step of `j = 69069 * j + 12345` on an `unsigned int`. -/
def lcgStep (j : Nat) : Nat := (69069 * j + 12345) % 2 ^ 32

/-- The loop `for (k=0 ; k<256 ; k++) { j = 69069 * j + 12345 ; Q[k] = j ; }`,
with `n` iterations left, the counter at `k` and the running value `j`. -/
def seedLoop : Nat → Nat → Nat → List Nat → List Nat
  | 0, _, _, Q => Q
  | n + 1, k, j, Q => seedLoop n (k + 1) (lcgStep j) (Q.set k (lcgStep j))

/-- The table after the lazy initialisation: `j` starts as the seed converted to
`unsigned int`. -/
def seedTable (seed : Int) (Q : List Nat) : List Nat :=
  seedLoop 256 0 (seed % 2 ^ 32).toNat Q

/-- `RAND32M`: returns the draw and the new generator state. -/
def RAND32M (g : MWC256) : Nat × MWC256 :=
  let Q0 := if g.MWC256_initialized then g.Q else seedTable g.MWC256_seed g.Q
  let i := (g.i + 1) % 256
  let t := (809430660 * Q0.getD i 0 + g.carry) % 2 ^ 64
  let carry := (t / 2 ^ 32) % 2 ^ 32
  let out := t % 2 ^ 32
  (out, { Q := Q0.set i out, carry := carry, MWC256_initialized := true,
          MWC256_seed := g.MWC256_seed, i := i })

/-! ## Indicator, target and regression (lines 133-198) -/

section Numeric

variable {α : Type} [LinearOrderedField α]

/-- Dereference `x + k` in an array of `double`: no value when the position is
outside the array. -/
def readAt (x : List α) (k : Int) : Option α :=
  if 0 ≤ k then x[k.toNat]? else none

/-- The loop of `ind_targ` (lines 148-152), with `n` iterations left, the counter
at `i` and `pptr` pointing at position `pptr` of the price array. Returns
`(denom, slope)`. -/
def slopeLoop (lookback : Nat) (price : List α) :
    Nat → Nat → Int → α → α → Option (α × α)
  | 0, _, _, denom, slope => some (denom, slope)
  | n + 1, i, pptr, denom, slope =>
    match readAt price pptr with
    | none => none
    | some p =>
      let coef : α := 2 * (i : α) / ((lookback : α) - 1) - 1
      slopeLoop lookback price n (i + 1) (pptr + 1) (denom + coef * coef) (slope + coef * p)

/-- `ind_targ`, called with `x` pointing at position `x` of the price array;
returns `(*ind, *targ)`. -/
def ind_targ (lookback lookahead : Nat) (price : List α) (x : Nat) : Option (α × α) :=
  match slopeLoop lookback price lookback 0 ((x : Int) - (lookback : Int) + 1) 0 0 with
  | none => none
  | some (denom, slope) =>
    match price[x + lookahead]?, price[x]? with
    | some xa, some x0 => some (slope / denom, xa - x0)
    | _, _ => none

/-- The dataset loop of `main` (lines 322-326), with `n` iterations left and the
counter at `i`; `data` holds the `ncases` cases written so far. -/
def dataLoop (lookback lookahead : Nat) (price : List α) :
    Nat → Nat → List (α × α) → Option (List (α × α))
  | 0, _, data => some data
  | n + 1, i, data =>
    match ind_targ lookback lookahead price i with
    | none => none
    | some c => dataLoop lookback lookahead price n (i + 1) (data ++ [c])

/-- Lines 322-326: `for (i=lookback-1 ; i<nprices-lookahead ; i++)` runs
`nprices - lookahead - (lookback - 1)` times (none when that is not positive).
The result is the dataset; `ncases` is its length. -/
def build_dataset (nprices lookback lookahead : Nat) (price : List α) :
    Option (List (α × α)) :=
  dataLoop lookback lookahead price (nprices - lookahead - (lookback - 1)) (lookback - 1) []

/-- `find_beta` on the `ntrn` cases starting at the pointer (`data` is the array
from the pointer on); returns `(*beta, *constant)`. With `ntrn = 0` the two means
are `0/0` and the routine has no value in exact arithmetic; with `ntrn < 0` the
loops do not run. The sums are those of the two loops of lines 180-194. -/
def find_beta (ntrn : Int) (data : List (α × α)) : Option (α × α) :=
  if ntrn = 0 then none
  else
    let rows := data.take ntrn.toNat
    let xmean : α := (rows.map Prod.fst).sum / (ntrn : α)
    let ymean : α := (rows.map Prod.snd).sum / (ntrn : α)
    let xy : α := (rows.map fun r => (r.1 - xmean) * (r.2 - ymean)).sum
    let xx : α := (rows.map fun r => (r.1 - xmean) * (r.1 - xmean)).sum
    let beta : α := xy / (xx + 1e-60)
    some (beta, ymean - beta * xmean)

/-- The value stored in `OOS` for one tested case (lines 362-366 and 480-484):
the target when `pred > 0.0`, its negation otherwise. A model without value
(`find_beta` on zero cases) makes the comparison false. -/
def oos_value (model : Option (α × α)) (c : α × α) : α :=
  match model with
  | some (beta, constant) => if beta * c.1 + constant > 0 then c.2 else -c.2
  | none => -c.2

/-- The test loop (lines 360-368 and 479-486), with `n` iterations left and
`test_ptr` at case `p`; every iteration appends one value to `OOS`. The
assertion of line 361 is that `p` is a case of the dataset. -/
def testLoop (model : Option (α × α)) (data : List (α × α)) :
    Nat → Nat → List α → Option (List α)
  | 0, _, OOS => some OOS
  | n + 1, p, OOS =>
    match data[p]? with
    | none => none
    | some c => testLoop model data n (p + 1) (OOS ++ [oos_value model c])

end Numeric

/-! ## Walkforward (lines 348-371)

The parameter `omit` of the program is called `nomit` here (`omit` is a reserved
word). -/

section Evaluators

variable {α : Type} [LinearOrderedField α]

/-- What one pass of the walkforward loop did (a record kept for the proofs, not
a variable of the program): `trn_ptr` and `istart` as case indices, the count
and the result of the `find_beta` call, and `nt`. -/
structure WalkFold (α : Type) where
  trn : Nat
  istart : Nat
  ntrn : Int
  model : Option (α × α)
  nt : Nat

/-- The loop `for (ifold=0 ;; ifold++)` of lines 352-371. The loop has no bound
of its own, so the embedding takes a number of passes it may make and has no
value when they are used up. `trn` is `trn_ptr` as a case index, `OOS` the
values written so far (`n_OOS_W` is its length). Past the `break` the test
pointer is below `ncases`, and `istart` moves with it, so `ncases - istart` is
a natural number there. -/
def walkLoop (ncases ntrain ntest nomit : Nat) (data : List (α × α)) :
    Nat → Nat → Nat → List α → List (WalkFold α) → Option (List α × List (WalkFold α))
  | 0, _, _, _, _ => none
  | fuel + 1, trn, istart, OOS, log =>
    let test := trn + ntrain
    if test ≥ ncases then some (OOS, log)
    else
      let model := find_beta ((ntrain : Int) - (nomit : Int)) (data.drop trn)
      let nt := if ntest > ncases - istart then ncases - istart else ntest
      match testLoop model data nt test OOS with
      | none => none
      | some OOS1 =>
        walkLoop ncases ntrain ntest nomit data fuel (trn + nt) (istart + nt) OOS1
          (log ++ [⟨trn, istart, (ntrain : Int) - (nomit : Int), model, nt⟩])

/-- Lines 348-371: `trn_ptr = data`, `istart = ntrain`, `n_OOS_W = 0`, then the
loop. -/
def walkforward (ncases ntrain ntest nomit : Nat) (data : List (α × α)) (fuel : Nat) :
    Option (List α × List (WalkFold α)) :=
  walkLoop ncases ntrain ntest nomit data fuel 0 ntrain [] []

/-! ## Cross validation (lines 416-506) -/

/-- The fold bounds alone (lines 421-424 and 504-505): `k` passes left, the
counter at `ifold`; every pass yields `(istart, istop)`. -/
def foldLoop (ncases nfolds : Nat) : Nat → Nat → Nat → Nat → List (Nat × Nat)
  | 0, _, _, _ => []
  | k + 1, ifold, istart, n_done =>
    let n_in_fold := (ncases - n_done) / (nfolds - ifold)
    let istop := istart + n_in_fold
    (istart, istop) :: foldLoop ncases nfolds k (ifold + 1) istop (n_done + n_in_fold)

/-- The `(istart, istop)` of the `nfolds` passes of the loop of line 421. -/
def foldBounds (ncases nfolds : Nat) : List (Nat × Nat) :=
  foldLoop ncases nfolds nfolds 0 0 0

/-- `memcpy ( dst+d*ncols , src+s*ncols , len*ncols*sizeof(double) )` on cases.
No value when the length is negative or a block leaves its array. -/
def memcpy (dst : List (α × α)) (d : Nat) (src : List (α × α)) (s : Nat) (len : Int) :
    Option (List (α × α)) :=
  if len < 0 then none
  else if s + len.toNat ≤ src.length ∧ d + len.toNat ≤ dst.length then
    some (dst.take d ++ (src.drop s).take len.toNat ++ dst.drop (d + len.toNat))
  else none

/-- The swap loop (lines 454-462 and 493-501), with `n` iterations left and the
counter at `i`: case `i` and case `ncases-n_in_fold+i-istart` change places. -/
def swapLoop (ncases n_in_fold istart : Nat) :
    Nat → Nat → List (α × α) → Option (List (α × α))
  | 0, _, data => some data
  | n + 1, i, data =>
    match data[i]?, data[ncases - n_in_fold + i - istart]? with
    | some a, some b =>
      swapLoop ncases n_in_fold istart n (i + 1)
        ((data.set i b).set (ncases - n_in_fold + i - istart) a)
    | _, _ => none

/-- What one pass of the cross validation loop did (a record kept for the proofs):
the fold, the count and the working buffer handed to `find_beta`, its result. -/
structure XvalFold (α : Type) where
  ifold : Nat
  istart : Nat
  istop : Nat
  ntrn : Int
  data : List (α × α)
  model : Option (α × α)

/-- The variables of the cross validation loop that live across passes; `OOS` are
the values written so far (`n_OOS_X` is its length), `log` the records. -/
structure XvalState (α : Type) where
  data : List (α × α)
  istart : Nat
  n_done : Nat
  OOS : List α
  log : List (XvalFold α)

/-- Lines 426-467: the working buffer and the reduced `ncases` with which
`find_beta` is called. -/
def xvalPrepare (ncases nfolds nomit : Nat) (data_save : List (α × α)) (ifold : Nat)
    (data : List (α × α)) (istart n_in_fold : Nat) : Option (List (α × α) × Int) :=
  let istop := istart + n_in_fold
  if nomit ≠ 0 then
    match memcpy data (ncases - n_in_fold) data_save istart (n_in_fold : Int) with
    | none => none
    | some d1 =>
      if ifold = 0 then
        match memcpy d1 0 data_save (istop + nomit) ((ncases : Int) - istop - nomit) with
        | none => none
        | some d2 => some (d2, (ncases : Int) - ((n_in_fold : Int) + nomit))
      else if ifold = nfolds - 1 then
        match memcpy d1 0 data_save 0 ((istart : Int) - nomit) with
        | none => none
        | some d2 => some (d2, (ncases : Int) - ((n_in_fold : Int) + nomit))
      else
        let first : Option (List (α × α) × Nat) :=
          if istart > nomit then
            match memcpy d1 0 data_save 0 ((istart : Int) - nomit) with
            | none => none
            | some d2 => some (d2, istart - nomit)
          else some (d1, 0)
        match first with
        | none => none
        | some (d2, nc) =>
          if ncases > istop + nomit then
            match memcpy d2 nc data_save (istop + nomit) ((ncases : Int) - istop - nomit) with
            | none => none
            | some d3 => some (d3, (nc : Int) + ((ncases : Int) - istop - nomit))
          else some (d2, (nc : Int))
  else
    if ifold < nfolds - 1 then
      match swapLoop ncases n_in_fold istart n_in_fold istart data with
      | none => none
      | some d1 => some (d1, (ncases : Int) - n_in_fold)
    else if (ncases : Int) - n_in_fold - istart = 0 then
      some (data, (ncases : Int) - n_in_fold)
    else none

/-- One pass of the loop of line 421 (lines 423-505). `ncases` is the saved
`ncases_save`, to which the variable is restored at line 476. `n_done` never
exceeds `ncases` and `ifold < nfolds` inside the loop, so the two differences of
line 423 are natural numbers. -/
def xvalFold (ncases nfolds nomit : Nat) (data_save : List (α × α)) (ifold : Nat)
    (st : XvalState α) : Option (XvalState α) :=
  let n_in_fold := (ncases - st.n_done) / (nfolds - ifold)
  let istop := st.istart + n_in_fold
  match xvalPrepare ncases nfolds nomit data_save ifold st.data st.istart n_in_fold with
  | none => none
  | some (d, ntrn) =>
    let model := find_beta ntrn d
    match testLoop model d n_in_fold (ncases - n_in_fold) st.OOS with
    | none => none
    | some OOS1 =>
      let back : Option (List (α × α)) :=
        if nomit = 0 ∧ ifold < nfolds - 1 then
          swapLoop ncases n_in_fold st.istart n_in_fold st.istart d
        else some d
      match back with
      | none => none
      | some d1 =>
        some { data := d1, istart := istop, n_done := st.n_done + n_in_fold, OOS := OOS1,
               log := st.log ++ [⟨ifold, st.istart, istop, ntrn, d, model⟩] }

/-- The loop `for (ifold=0 ; ifold<nfolds ; ifold++)`, with `k` passes left. -/
def xvalLoop (ncases nfolds nomit : Nat) (data_save : List (α × α)) :
    Nat → Nat → XvalState α → Option (XvalState α)
  | 0, _, st => some st
  | k + 1, ifold, st =>
    match xvalFold ncases nfolds nomit data_save ifold st with
    | none => none
    | some st1 => xvalLoop ncases nfolds nomit data_save k (ifold + 1) st1

/-- Lines 328-329 and 416-506: `data_save` is a copy of the dataset, `istart`,
`n_done` and `n_OOS_X` start at zero. -/
def xval (ncases nfolds nomit : Nat) (data : List (α × α)) : Option (XvalState α) :=
  xvalLoop ncases nfolds nomit data nfolds 0 ⟨data, 0, 0, [], []⟩

end Evaluators

/-! ## The quantities named by the specification -/

section SpecNames

variable {α : Type} [LinearOrderedField α]

/-- The coefficient `c_k = 2k/(lookback-1) - 1` of the specification. -/
def spec_coef (lookback k : Nat) : α := 2 * (k : α) / ((lookback : α) - 1) - 1

/-- The slope of the specification for the window of `lookback` prices that
starts at position `s`: `Σ c_k · price[s+k] / Σ c_k²`. -/
def spec_slope (lookback : Nat) (price : List α) (s : Nat) : α :=
  (∑ k ∈ Finset.range lookback, spec_coef lookback k * price[s + k]?.getD 0) /
    (∑ k ∈ Finset.range lookback, (spec_coef lookback k : α) * spec_coef lookback k)

/-- The price ramp `price[i] = c * i` of `nprices` prices. -/
def ramp (c : α) (nprices : Nat) : List α :=
  (List.range nprices).map fun (i : Nat) => c * (i : α)

end SpecNames

/-! ## Uniform draws, the normal CDF, the parameter checks and the final statistic

`exp` and `sqrt` of `math.h` are parameters of the routines that call them. -/

section Reporting

variable {α : Type} [LinearOrderedField α]

/-- `unifrand` (lines 117-121): `mult = 1.0 / 0xFFFFFFFF`, the value is
`mult * RAND32M()`. Returns the value and the new generator state. -/
def unifrand (g : MWC256) : α × MWC256 :=
  let mult : α := 1 / 4294967295
  (mult * ((RAND32M g).1 : α), (RAND32M g).2)

/-- The first `k` values returned by successive calls of `RAND32M`. -/
def draws : Nat → MWC256 → List Nat
  | 0, _ => []
  | k + 1, g => (RAND32M g).1 :: draws k (RAND32M g).2

/-- `normal_cdf` (lines 24-32). -/
def normal_cdf (exp sqrt : α → α) (z : α) : α :=
  let zz : α := |z|
  let pdf : α := exp (-0.5 * zz * zz) / sqrt (2.0 * 3.141592653589793)
  let t : α := 1.0 / (1.0 + zz * 0.2316419)
  let poly : α := ((((1.330274429 * t - 1.821255978) * t + 1.781477937) * t -
                    0.356563782) * t + 0.319381530) * t
  if z > 0.0 then 1.0 - pdf * poly else pdf * poly

/-- What the parameter checks of lines 263-279 decide: print the usage text
(after the `Nprices must be at least ...` line when `nprices_line` is set) and
`exit ( 1 )`, or go on. -/
inductive Startup where
  | usage_exit (nprices_line : Bool)
  | proceed
  deriving DecidableEq, Repr

/-- Lines 263-279, on the seven integers that `atoi` returned. -/
def check_params (nprices lookback lookahead ntrain ntest nfolds nomit : Int) : Startup :=
  if nprices < 2 ∨ lookback < 2 ∨ lookahead < 1 ∨
      ntrain < 2 ∨ ntest < 1 ∨ nfolds < 2 ∨ nomit < 0 then
    Startup.usage_exit (decide (nprices < lookback + lookahead + ntrain + ntest + 10))
  else Startup.proceed

/-- Lines 335-339: the number of folds cannot exceed the number of cases. -/
def clamp_nfolds (nfolds ncases : Nat) : Nat :=
  if nfolds > ncases then ncases else nfolds

/-- The four sums that `main` keeps across replications. -/
structure Totals (α : Type) where
  mean_W : α
  mean_X : α
  ss_W : α
  ss_X : α

/-- Lines 526-529 for one replication with means `(OOS_mean_W, OOS_mean_X)`. -/
def cumulate (a : Totals α) (r : α × α) : Totals α :=
  { mean_W := a.mean_W + r.1, mean_X := a.mean_X + r.2,
    ss_W := a.ss_W + r.1 * r.1, ss_X := a.ss_X + r.2 * r.2 }

/-- The sums after all replications (line 296 and lines 526-529 in the loop of
line 305); `reps` are the pairs `(OOS_mean_W, OOS_mean_X)` in order. -/
def cumulate_all (reps : List (α × α)) : Totals α :=
  reps.foldl cumulate ⟨0, 0, 0, 0⟩

/-- The values computed at lines 536-549: the two grand means, `denom` before
and after the square root, `t`, and the right tail `1.0 - normal_cdf ( t )`. -/
structure FinalStats (α : Type) where
  mean_W : α
  mean_X : α
  radicand : α
  denom : α
  t : α
  rtail : α

/-- Lines 536-541 and the last argument of line 549. -/
def final_stats (exp sqrt : α → α) (nreps : Nat) (a : Totals α) : FinalStats α :=
  let mean_W : α := a.mean_W / (nreps : α)
  let mean_X : α := a.mean_X / (nreps : α)
  let denom0 : α := a.ss_W + a.ss_X - (nreps : α) * (mean_W * mean_W + mean_X * mean_X)
  let denom1 : α := denom0 / ((nreps : α) * ((nreps : α) - 1.0))
  let denom : α := sqrt denom1
  let t : α := (mean_X - mean_W) / denom
  { mean_W := mean_W, mean_X := mean_X, radicand := denom1, denom := denom, t := t,
    rtail := 1.0 - normal_cdf exp sqrt t }

end Reporting

/-! ## Lemmas on the indicator and the dataset -/

theorem readAt_natCast {α : Type} (x : List α) (k : Nat) : readAt x (k : Int) = x[k]? := by
  simp [readAt]

section NumericLemmas

variable {α : Type} [LinearOrderedField α]

theorem slopeLoop_eq (lookback : Nat) (price : List α) (n : Nat) :
    ∀ (i s : Nat) (denom slope : α), s + n ≤ price.length →
      slopeLoop lookback price n i (s : Int) denom slope =
        some (denom + ∑ k ∈ Finset.range n,
                (spec_coef lookback (i + k) : α) * spec_coef lookback (i + k),
              slope + ∑ k ∈ Finset.range n,
                spec_coef lookback (i + k) * price[s + k]?.getD 0) := by
  induction n with
  | zero => intro i s denom slope _; simp [slopeLoop]
  | succ n ih =>
    intro i s denom slope hs
    have hlt : s < price.length := by omega
    have h1 : ((s : Int) + 1) = ((s + 1 : Nat) : Int) := by push_cast; rfl
    rw [slopeLoop, readAt_natCast, List.getElem?_eq_getElem hlt]
    simp only []
    rw [h1, ih (i + 1) (s + 1) _ _ (by omega)]
    rw [Finset.sum_range_succ', Finset.sum_range_succ']
    have e1 : ∀ k, i + 1 + k = i + (k + 1) := by intro k; omega
    have e2 : ∀ k, s + 1 + k = s + (k + 1) := by intro k; omega
    simp only [e1, e2, Nat.add_zero, List.getElem?_eq_getElem hlt, Option.getD_some,
      spec_coef]
    refine congrArg some (Prod.ext ?_ ?_) <;> simp only [] <;> ring

theorem ind_targ_eq (lookback lookahead : Nat) (price : List α) (x : Nat)
    (h1 : lookback ≤ x + 1) (h2 : x + lookahead < price.length) :
    ind_targ lookback lookahead price x =
      some (spec_slope lookback price (x + 1 - lookback),
            price[x + lookahead]?.getD 0 - price[x]?.getD 0) := by
  have hp : ((x : Int) - (lookback : Int) + 1) = ((x + 1 - lookback : Nat) : Int) := by
    omega
  have hx : x < price.length := by omega
  unfold ind_targ
  rw [hp, slopeLoop_eq lookback price lookback 0 _ 0 0 (by omega)]
  simp only [List.getElem?_eq_getElem h2, List.getElem?_eq_getElem hx, Option.getD_some,
    zero_add, spec_slope]

theorem sum_spec_coef (lookback n : Nat) (hd : ((lookback : α) - 1) ≠ 0) :
    ∑ k ∈ Finset.range n, (spec_coef lookback k : α) =
      (n : α) * ((n : α) - 1) / ((lookback : α) - 1) - n := by
  induction n with
  | zero => simp
  | succ n ih =>
    rw [Finset.sum_range_succ, ih, spec_coef]
    push_cast
    field_simp
    ring

theorem sum_spec_coef_window (lookback : Nat) (hl : 2 ≤ lookback) :
    ∑ k ∈ Finset.range lookback, (spec_coef lookback k : α) = 0 := by
  have h2 : (2 : α) ≤ (lookback : α) := by exact_mod_cast hl
  have hd : ((lookback : α) - 1) ≠ 0 := by
    have : (0 : α) < (lookback : α) - 1 := by linarith
    exact ne_of_gt this
  rw [sum_spec_coef lookback lookback hd]
  field_simp

theorem sum_sq_spec_coef_pos (lookback : Nat) (hl : 2 ≤ lookback) :
    (0 : α) < ∑ k ∈ Finset.range lookback,
      (spec_coef lookback k : α) * spec_coef lookback k := by
  obtain ⟨m, rfl⟩ : ∃ m, lookback = m + 1 := ⟨lookback - 1, by omega⟩
  rw [Finset.sum_range_succ']
  have h0 : (spec_coef (m + 1) 0 : α) * spec_coef (m + 1) 0 = 1 := by
    simp [spec_coef]
  have h1 : (0 : α) ≤ ∑ k ∈ Finset.range m,
      (spec_coef (m + 1) (k + 1) : α) * spec_coef (m + 1) (k + 1) :=
    Finset.sum_nonneg fun k _ => mul_self_nonneg _
  rw [h0]
  linarith

theorem ramp_getElem? (c : α) (nprices j : Nat) (hj : j < nprices) :
    (ramp c nprices)[j]? = some (c * (j : α)) := by
  rw [ramp, List.getElem?_map, List.getElem?_range hj]
  rfl

theorem spec_slope_ramp (lookback : Nat) (hl : 2 ≤ lookback) (c : α) (nprices s : Nat)
    (hs : s + lookback ≤ nprices) :
    spec_slope lookback (ramp c nprices) s = c * ((lookback : α) - 1) / 2 := by
  have h2 : (2 : α) ≤ (lookback : α) := by exact_mod_cast hl
  have hd : ((lookback : α) - 1) ≠ 0 := by
    have : (0 : α) < (lookback : α) - 1 := by linarith
    exact ne_of_gt this
  have hD := sum_sq_spec_coef_pos (α := α) lookback hl
  have hterm : ∀ k ∈ Finset.range lookback,
      (spec_coef lookback k : α) * (ramp c nprices)[s + k]?.getD 0 =
        c * (((lookback : α) - 1) / 2) * (spec_coef lookback k * spec_coef lookback k) +
        c * ((s : α) + ((lookback : α) - 1) / 2) * spec_coef lookback k := by
    intro k hk
    have hk1 : s + k < nprices := by
      have := Finset.mem_range.mp hk
      omega
    rw [ramp_getElem? c nprices (s + k) hk1, Option.getD_some, spec_coef]
    push_cast
    field_simp
    ring
  unfold spec_slope
  rw [Finset.sum_congr rfl hterm, Finset.sum_add_distrib, ← Finset.mul_sum, ← Finset.mul_sum,
    sum_spec_coef_window lookback hl, mul_zero, add_zero]
  field_simp
  ring

end NumericLemmas

section DatasetTheorems

variable {α : Type} [LinearOrderedField α]

theorem dataLoop_eq (lookback lookahead : Nat) (price : List α) (n : Nat) :
    ∀ (i : Nat) (data : List (α × α)), lookback ≤ i + 1 → i + n + lookahead ≤ price.length →
      dataLoop lookback lookahead price n i data =
        some (data ++ (List.range n).map fun k =>
          (spec_slope lookback price (i + k + 1 - lookback),
           price[i + k + lookahead]?.getD 0 - price[i + k]?.getD 0)) := by
  induction n with
  | zero => intro i data _ _; simp [dataLoop]
  | succ n ih =>
    intro i data h1 h2
    rw [dataLoop, ind_targ_eq lookback lookahead price i h1 (by omega)]
    simp only []
    rw [ih (i + 1) _ (by omega) (by omega), List.range_succ_eq_map, List.map_cons,
      List.map_map, List.append_assoc]
    have e : ∀ k, i + 1 + k = i + (k + 1) := by intro k; omega
    simp only [List.singleton_append, Nat.add_zero, Function.comp_def, Nat.succ_eq_add_one, e]

/-- C7 fails as stated: on the ramp `price[i] = 1 * i` with `lookback = 2` the
indicator of the window ending at price 1 is `1/2`, not `c = 1`. -/
theorem ind_targ_ramp_counterexample :
    ind_targ 2 1 (ramp (1 : ℚ) 3) 1 = some (1 / 2, 1) ∧ (1 / 2 : ℚ) ≠ 1 := by
  refine ⟨?_, by norm_num⟩
  rw [ind_targ_eq 2 1 (ramp (1 : ℚ) 3) 1 (by norm_num) (by simp [ramp]),
    spec_slope_ramp 2 (by norm_num) 1 3 (1 + 1 - 2) (by norm_num),
    ramp_getElem? 1 3 (1 + 1) (by norm_num), ramp_getElem? 1 3 1 (by norm_num)]
  norm_num

/-- C7, amended. On the ramp `price[i] = c * i`, for every `lookback >= 2`, every
`c` of the field and every window inside the series, `ind_targ` returns the
indicator `c * (lookback - 1) / 2` (the slope against the time index scaled to
`[-1, 1]`), and the target `c * lookahead`. -/
theorem ind_targ_ramp (lookback lookahead : Nat) (c : α) (nprices x : Nat)
    (hl : 2 ≤ lookback) (h1 : lookback ≤ x + 1) (h2 : x + lookahead < nprices) :
    ind_targ lookback lookahead (ramp c nprices) x =
      some (c * ((lookback : α) - 1) / 2, c * (lookahead : α)) := by
  have hlen : (ramp c nprices).length = nprices := by simp [ramp]
  rw [ind_targ_eq lookback lookahead (ramp c nprices) x h1 (by omega),
    spec_slope_ramp lookback hl c nprices (x + 1 - lookback) (by omega),
    ramp_getElem? c nprices (x + lookahead) h2, ramp_getElem? c nprices x (by omega)]
  simp only [Option.getD_some]
  push_cast
  congr 2
  ring

theorem ind_targ_ramp_witness :
    (2 ≤ 4 ∧ 4 ≤ 3 + 1 ∧ 3 + 1 < 8) ∧
    ind_targ 4 1 (ramp (5 : ℚ) 8) 3 = some (5 * (((4 : Nat) : ℚ) - 1) / 2, 5 * ((1 : Nat) : ℚ)) :=
  ⟨by decide, ind_targ_ramp 4 1 (5 : ℚ) 8 3 (by decide) (by decide) (by decide)⟩

/-- C9. For parameters that pass the validation (`lookback >= 2`, `lookahead >= 1`,
`nprices >= lookback + lookahead + ntrain + ntest + 10`) and a series of `nprices`
prices, the dataset loop succeeds (every price read is inside the series) and
yields `ncases = nprices - lookback - lookahead + 1` cases; case `i` has as
indicator the slope of the window `[i, i+lookback-1]` and as target
`price[i+lookback-1+lookahead] - price[i+lookback-1]`, both positions being below
`nprices`. -/
theorem build_dataset_cases (nprices lookback lookahead ntrain ntest : Nat) (price : List α)
    (hlen : price.length = nprices) (hlb : 2 ≤ lookback) (hla : 1 ≤ lookahead)
    (hn : lookback + lookahead + ntrain + ntest + 10 ≤ nprices) :
    ∃ data : List (α × α),
      build_dataset nprices lookback lookahead price = some data ∧
      (data.length : Int) = (nprices : Int) - lookback - lookahead + 1 ∧
      ∀ i, i < data.length →
        i + lookback - 1 + lookahead < nprices ∧
        ∃ p1 p0 : α,
          price[i + lookback - 1 + lookahead]? = some p1 ∧
          price[i + lookback - 1]? = some p0 ∧
          data[i]? = some (spec_slope lookback price i, p1 - p0) := by
  refine ⟨_, dataLoop_eq lookback lookahead price _ (lookback - 1) [] (by omega) (by omega),
    ?_, ?_⟩
  · simp only [List.nil_append, List.length_map, List.length_range]
    omega
  · intro i hi
    simp only [List.nil_append, List.length_map, List.length_range] at hi
    have hb : i + lookback - 1 + lookahead < nprices := by omega
    have hb1 : i + lookback - 1 + lookahead < price.length := by omega
    have hb0 : i + lookback - 1 < price.length := by omega
    refine ⟨hb, price[i + lookback - 1 + lookahead], price[i + lookback - 1],
      List.getElem?_eq_getElem hb1, List.getElem?_eq_getElem hb0, ?_⟩
    have e1 : lookback - 1 + i + lookahead = i + lookback - 1 + lookahead := by omega
    have e2 : lookback - 1 + i = i + lookback - 1 := by omega
    have e3 : i + lookback - 1 + 1 - lookback = i := by omega
    simp only [List.nil_append, List.getElem?_map, List.getElem?_range hi, Option.map_some',
      e1, e2, e3, List.getElem?_eq_getElem hb1, List.getElem?_eq_getElem hb0,
      Option.getD_some]

theorem build_dataset_cases_witness :
    (([0, 1, 3, 2, 5, 4, 6, 9, 8, 7, 11, 10, 12, 14, 13, 15, 17] : List ℚ).length = 17 ∧
      2 ≤ 2 ∧ 1 ≤ 1 ∧ 2 + 1 + 2 + 1 + 10 ≤ 17) ∧
    ∃ data : List (ℚ × ℚ),
      build_dataset 17 2 1 [0, 1, 3, 2, 5, 4, 6, 9, 8, 7, 11, 10, 12, 14, 13, 15, 17]
        = some data ∧
      (data.length : Int) = ((17 : Nat) : Int) - (2 : Nat) - (1 : Nat) + 1 ∧
      ∀ i, i < data.length →
        i + 2 - 1 + 1 < 17 ∧
        ∃ p1 p0 : ℚ,
          ([0, 1, 3, 2, 5, 4, 6, 9, 8, 7, 11, 10, 12, 14, 13, 15, 17] : List ℚ)[i + 2 - 1 + 1]?
            = some p1 ∧
          ([0, 1, 3, 2, 5, 4, 6, 9, 8, 7, 11, 10, 12, 14, 13, 15, 17] : List ℚ)[i + 2 - 1]?
            = some p0 ∧
          data[i]? = some (spec_slope 2
            [0, 1, 3, 2, 5, 4, 6, 9, 8, 7, 11, 10, 12, 14, 13, 15, 17] i, p1 - p0) :=
  ⟨⟨rfl, by decide, by decide, by decide⟩,
   build_dataset_cases 17 2 1 2 1 _ rfl (by decide) (by decide) (by decide)⟩

end DatasetTheorems

section RegressionTheorems

variable {α : Type} [LinearOrderedField α]

theorem sum_snd_of_line (a b : α) (data : List (α × α))
    (hline : ∀ r ∈ data, r.2 = a * r.1 + b) :
    (data.map Prod.snd).sum = a * (data.map Prod.fst).sum + (data.length : α) * b := by
  induction data with
  | nil => simp
  | cons r rs ih =>
    have hr := hline r (List.mem_cons_self _ _)
    have hrs := ih fun s hs => hline s (List.mem_cons_of_mem _ hs)
    simp only [List.map_cons, List.sum_cons, List.length_cons, hr, hrs]
    push_cast
    ring

theorem sum_map_pos {β : Type} (f : β → α) (l : List β) (h0 : ∀ x ∈ l, 0 ≤ f x)
    (h1 : ∃ x ∈ l, 0 < f x) : 0 < (l.map f).sum := by
  induction l with
  | nil => obtain ⟨x, hx, _⟩ := h1; cases hx
  | cons y ys ih =>
    have hy := h0 y (List.mem_cons_self _ _)
    have hys : 0 ≤ (ys.map f).sum :=
      List.sum_nonneg fun z hz => by
        obtain ⟨w, hw, rfl⟩ := List.mem_map.mp hz
        exact h0 w (List.mem_cons_of_mem _ hw)
    obtain ⟨x, hx, hfx⟩ := h1
    simp only [List.map_cons, List.sum_cons]
    rcases List.mem_cons.mp hx with rfl | hx
    · linarith
    · have := ih (fun z hz => h0 z (List.mem_cons_of_mem _ hz)) ⟨x, hx, hfx⟩
      linarith

theorem sxx_pos (data : List (α × α)) (xm : α)
    (hne : ∃ r ∈ data, ∃ s ∈ data, r.1 ≠ s.1) :
    0 < (data.map fun r => (r.1 - xm) * (r.1 - xm)).sum := by
  apply sum_map_pos _ _ (fun r _ => mul_self_nonneg _)
  obtain ⟨r, hr, s, hs, hrs⟩ := hne
  by_cases h : r.1 = xm
  · refine ⟨s, hs, mul_self_pos.mpr ?_⟩
    intro h2
    exact hrs (by rw [h]; exact (sub_eq_zero.mp h2).symm)
  · exact ⟨r, hr, mul_self_pos.mpr (sub_ne_zero.mpr h)⟩

/-- C8. For `n >= 2` cases lying on `y = a*x + b` whose `x` are not all equal,
`find_beta` returns `beta = a*Sxx/(Sxx + 1e-60)` and
`constant = b + (a - beta)*mean(x)`, where `Sxx` is the sum of the
`(x_i - mean(x))^2` and is positive; hence `|beta - a| <= |a|*1e-60/Sxx` and
`|constant - b| <= |a|*|mean(x)|*1e-60/Sxx`. -/
theorem find_beta_line (a b : α) (data : List (α × α)) (n : Nat) (xm sxx : α)
    (hn : data.length = n) (h2 : 2 ≤ n)
    (hline : ∀ r ∈ data, r.2 = a * r.1 + b)
    (hne : ∃ r ∈ data, ∃ s ∈ data, r.1 ≠ s.1)
    (hxm : xm = (data.map Prod.fst).sum / (n : α))
    (hsxx : sxx = (data.map fun r => (r.1 - xm) * (r.1 - xm)).sum) :
    ∃ beta constant : α,
      find_beta (n : Int) data = some (beta, constant) ∧
      0 < sxx ∧
      beta = a * sxx / (sxx + 1e-60) ∧
      constant = b + (a - beta) * xm ∧
      |beta - a| ≤ |a| * 1e-60 / sxx ∧
      |constant - b| ≤ |a| * |xm| * 1e-60 / sxx := by
  have heps : (0 : α) < 1e-60 := by norm_num
  have hS : 0 < sxx := by rw [hsxx]; exact sxx_pos data xm hne
  have hn0 : (n : α) ≠ 0 := by
    have : (0 : α) < (n : α) := by exact_mod_cast (by omega : 0 < n)
    exact ne_of_gt this
  have hnz : (n : Int) ≠ 0 := by omega
  have hym : (data.map Prod.snd).sum / (n : α) = a * xm + b := by
    rw [sum_snd_of_line a b data hline, hn, hxm]
    field_simp
    ring
  have hxy : (data.map fun r => (r.1 - xm) * (r.2 - (a * xm + b))).sum = a * sxx := by
    rw [hsxx, ← List.sum_map_mul_left]
    congr 1
    apply List.map_congr_left
    intro r hr
    rw [hline r hr]
    ring
  have hfb : find_beta (n : Int) data =
      some (a * sxx / (sxx + 1e-60), a * xm + b - a * sxx / (sxx + 1e-60) * xm) := by
    unfold find_beta
    rw [if_neg hnz]
    simp only [Int.toNat_ofNat, Int.cast_natCast]
    rw [← hn, List.take_length, hn, ← hxm, hym, hxy, ← hsxx]
  have hden : 0 < sxx + 1e-60 := by linarith
  have hdiff : a * sxx / (sxx + 1e-60) - a = -(a * 1e-60 / (sxx + 1e-60)) := by
    field_simp
    ring
  have hb1 : |a * sxx / (sxx + 1e-60) - a| ≤ |a| * 1e-60 / sxx := by
    rw [hdiff, abs_neg, abs_div, abs_mul, abs_of_pos heps, abs_of_pos hden]
    apply div_le_div_of_nonneg_left (mul_nonneg (abs_nonneg a) heps.le) hS
    linarith
  refine ⟨_, _, hfb, hS, rfl, by ring, hb1, ?_⟩
  have e : a * xm + b - a * sxx / (sxx + 1e-60) * xm - b =
      -((a * sxx / (sxx + 1e-60) - a) * xm) := by ring
  rw [e, abs_neg, abs_mul]
  calc |a * sxx / (sxx + 1e-60) - a| * |xm|
      ≤ (|a| * 1e-60 / sxx) * |xm| := mul_le_mul_of_nonneg_right hb1 (abs_nonneg xm)
    _ = |a| * |xm| * 1e-60 / sxx := by ring

theorem find_beta_line_witness :
    ∃ beta constant : ℚ,
      find_beta ((3 : Nat) : Int) [((1 : ℚ), (5 : ℚ)), (2, 7), (4, 11)] = some (beta, constant) ∧
      0 < (14 / 3 : ℚ) ∧
      beta = 2 * (14 / 3) / (14 / 3 + 1e-60) ∧
      constant = 3 + (2 - beta) * (7 / 3) ∧
      |beta - 2| ≤ |(2 : ℚ)| * 1e-60 / (14 / 3) ∧
      |constant - 3| ≤ |(2 : ℚ)| * |(7 / 3 : ℚ)| * 1e-60 / (14 / 3) :=
  find_beta_line (2 : ℚ) 3 [(1, 5), (2, 7), (4, 11)] 3 (7 / 3) (14 / 3) rfl (by decide)
    (by
      intro r hr
      simp only [List.mem_cons, List.mem_singleton, List.not_mem_nil, or_false] at hr
      rcases hr with rfl | rfl | rfl <;> norm_num)
    ⟨(1, 5), by simp, (2, 7), by simp, by norm_num⟩
    (by norm_num) (by norm_num)

end RegressionTheorems

/-! ## The folds of the cross validation -/

theorem fold_size_step (q k R : Nat) (hk : 1 ≤ k) (h1 : q * k ≤ R) (h2 : R ≤ (q + 1) * k) :
    (R / k = q ∨ R / k = q + 1) ∧ R / k ≤ R ∧
      q * (k - 1) ≤ R - R / k ∧ R - R / k ≤ (q + 1) * (k - 1) := by
  obtain ⟨m, rfl⟩ : ∃ m, k = m + 1 := ⟨k - 1, by omega⟩
  have hpos : 0 < m + 1 := by omega
  have hlo : q ≤ R / (m + 1) := (Nat.le_div_iff_mul_le hpos).mpr h1
  have hhi : R / (m + 1) ≤ q + 1 := Nat.div_le_of_le_mul (by rw [Nat.mul_comm]; exact h2)
  have hle : R / (m + 1) * (m + 1) ≤ R := Nat.div_mul_le_self R (m + 1)
  have hlt : R < (R / (m + 1) + 1) * (m + 1) := by
    have := Nat.lt_succ_iff.mpr (Nat.le_refl (R / (m + 1)))
    exact (Nat.div_lt_iff_lt_mul hpos).mp this
  have hself : R / (m + 1) ≤ R := Nat.div_le_self R (m + 1)
  simp only [Nat.add_sub_cancel]
  rcases Nat.lt_or_ge (R / (m + 1)) (q + 1) with hc | hc
  · have e : R / (m + 1) = q := by omega
    refine ⟨Or.inl e, hself, ?_, ?_⟩ <;> rw [e] at hlt hle ⊢ <;>
      simp only [Nat.add_mul, Nat.mul_add, Nat.mul_one, Nat.one_mul] at h1 h2 hlt hle ⊢ <;>
      omega
  · have e : R / (m + 1) = q + 1 := by omega
    refine ⟨Or.inr e, hself, ?_, ?_⟩ <;> rw [e] at hlt hle ⊢ <;>
      simp only [Nat.add_mul, Nat.mul_add, Nat.mul_one, Nat.one_mul] at h1 h2 hlt hle ⊢ <;>
      omega

/-- The facts about the folds produced from a state of the loop in which
`k` passes are left and the remaining cases lie between `q*k` and `(q+1)*k`. -/
theorem foldLoop_spec (ncases nfolds q : Nat) (k : Nat) :
    ∀ (ifold istart : Nat), ifold + k = nfolds → istart ≤ ncases →
      q * k ≤ ncases - istart → ncases - istart ≤ (q + 1) * k →
      (foldLoop ncases nfolds k ifold istart istart).length = k ∧
      (∀ f ∈ foldLoop ncases nfolds k ifold istart istart,
        istart ≤ f.1 ∧ f.2 ≤ ncases ∧ (f.2 = f.1 + q ∨ f.2 = f.1 + q + 1)) ∧
      ((foldLoop ncases nfolds k ifold istart istart).map fun f => f.2 - f.1).sum
        = ncases - istart ∧
      List.Chain' (fun f g : Nat × Nat => g.1 = f.2)
        (foldLoop ncases nfolds k ifold istart istart) ∧
      (∀ f, (foldLoop ncases nfolds k ifold istart istart).head? = some f → f.1 = istart) ∧
      (∀ f, (foldLoop ncases nfolds k ifold istart istart).getLast? = some f → f.2 = ncases) ∧
      (∀ i f, (foldLoop ncases nfolds k ifold istart istart)[i]? = some f →
        f.2 = f.1 + (ncases - f.1) / (nfolds - (ifold + i))) ∧
      List.Pairwise (fun f g : Nat × Nat => f.2 ≤ g.1)
        (foldLoop ncases nfolds k ifold istart istart) ∧
      (∀ j, istart ≤ j → j < ncases →
        ∃ f ∈ foldLoop ncases nfolds k ifold istart istart, f.1 ≤ j ∧ j < f.2) := by
  induction k with
  | zero =>
    intro ifold istart _ _ _ h2
    have h0 : ncases - istart = 0 := by simpa using h2
    simp only [foldLoop, List.length_nil, List.not_mem_nil, false_implies, implies_true,
      List.map_nil, List.sum_nil, h0, List.chain'_nil, List.head?_nil, List.getLast?_nil,
      List.getElem?_nil, List.Pairwise.nil, true_and, false_and, exists_false, imp_false,
      not_lt, reduceCtorEq]
    intro j hj
    omega
  | succ k ih =>
    intro ifold istart hK hle h1 h2
    obtain ⟨hsz, hnle, h3, h4⟩ := fold_size_step q (k + 1) (ncases - istart) (by omega) h1 h2
    have hk : nfolds - ifold = k + 1 := by omega
    simp only [Nat.add_sub_cancel] at h3 h4
    have e1 : ncases - (istart + (ncases - istart) / (k + 1))
        = ncases - istart - (ncases - istart) / (k + 1) := by omega
    obtain ⟨a1, a2, a3, a4, a5, a6, a7, a8, a9⟩ :=
      ih (ifold + 1) (istart + (ncases - istart) / (k + 1)) (by omega) (by omega)
        (by rw [e1]; exact h3) (by rw [e1]; exact h4)
    have hunf : foldLoop ncases nfolds (k + 1) ifold istart istart =
        (istart, istart + (ncases - istart) / (k + 1)) ::
          foldLoop ncases nfolds k (ifold + 1) (istart + (ncases - istart) / (k + 1))
            (istart + (ncases - istart) / (k + 1)) := by
      simp only [foldLoop, hk]
    rw [hunf]
    refine ⟨by simp [a1], ?_, ?_, ?_, ?_, ?_, ?_, ?_, ?_⟩
    · intro f hf
      rcases List.mem_cons.mp hf with rfl | hf
      · simp only []
        refine ⟨le_refl _, by omega, ?_⟩
        rcases hsz with e | e <;> rw [e] <;> omega
      · obtain ⟨b1, b2, b3⟩ := a2 f hf
        exact ⟨by omega, b2, b3⟩
    · simp only [List.map_cons, List.sum_cons, a3]
      omega
    · rw [List.chain'_cons']
      exact ⟨fun g hg => a5 g hg, a4⟩
    · intro f hf
      simp only [List.head?_cons, Option.some.injEq] at hf
      rw [← hf]
    · intro f hf
      rw [List.getLast?_cons] at hf
      cases hrest : (foldLoop ncases nfolds k (ifold + 1)
          (istart + (ncases - istart) / (k + 1))
          (istart + (ncases - istart) / (k + 1))).getLast? with
      | none =>
        rw [hrest] at hf
        simp only [Option.getD_none, Option.some.injEq] at hf
        rw [List.getLast?_eq_none_iff] at hrest
        rw [hrest] at a1
        have hk0 : k = 0 := by simpa using a1.symm
        subst hk0
        rw [← hf]
        simp only [Nat.zero_add, Nat.div_one]
        omega
      | some g =>
        rw [hrest] at hf
        simp only [Option.getD_some, Option.some.injEq] at hf
        rw [← hf]
        exact a6 g hrest
    · intro i f hf
      cases i with
      | zero =>
        simp only [List.getElem?_cons_zero, Option.some.injEq] at hf
        rw [← hf]
        simp only [Nat.add_zero, hk]
      | succ i =>
        simp only [List.getElem?_cons_succ] at hf
        have := a7 i f hf
        have e : ifold + (i + 1) = ifold + 1 + i := by omega
        rw [e]
        exact this
    · rw [List.pairwise_cons]
      exact ⟨fun g hg => (a2 g hg).1, a8⟩
    · intro j hj1 hj2
      by_cases hj : j < istart + (ncases - istart) / (k + 1)
      · exact ⟨_, List.mem_cons_self _ _, hj1, hj⟩
      · obtain ⟨f, hf, hf1, hf2⟩ := a9 j (by omega) hj2
        exact ⟨f, List.mem_cons_of_mem _ hf, hf1, hf2⟩

/-- C2. For `1 <= nfolds <= ncases` the loop makes `nfolds` folds
`[istart, istop)`; the size of fold `i` is `(ncases - istart) / (nfolds - i)`
(at that point `n_done = istart`), every size is at least 1, the sizes sum to
`ncases`, any two differ by at most one; the first fold starts at 0, every fold
starts where the one before stops, the last stops at `ncases`; the folds are
pairwise disjoint and every case of `[0, ncases)` lies in one. -/
theorem foldBounds_partition (ncases nfolds : Nat) (h1 : 1 ≤ nfolds) (h2 : nfolds ≤ ncases) :
    (foldBounds ncases nfolds).length = nfolds ∧
    (∀ i f, (foldBounds ncases nfolds)[i]? = some f →
      f.2 = f.1 + (ncases - f.1) / (nfolds - i)) ∧
    (∀ f ∈ foldBounds ncases nfolds, f.1 + 1 ≤ f.2 ∧ f.2 ≤ ncases) ∧
    ((foldBounds ncases nfolds).map fun f => f.2 - f.1).sum = ncases ∧
    (∀ f ∈ foldBounds ncases nfolds, ∀ g ∈ foldBounds ncases nfolds,
      f.2 - f.1 ≤ g.2 - g.1 + 1) ∧
    List.Chain' (fun f g : Nat × Nat => g.1 = f.2) (foldBounds ncases nfolds) ∧
    (∃ f, (foldBounds ncases nfolds).head? = some f ∧ f.1 = 0) ∧
    (∃ f, (foldBounds ncases nfolds).getLast? = some f ∧ f.2 = ncases) ∧
    List.Pairwise (fun f g : Nat × Nat => f.2 ≤ g.1) (foldBounds ncases nfolds) ∧
    (∀ j, j < ncases → ∃ f ∈ foldBounds ncases nfolds, f.1 ≤ j ∧ j < f.2) := by
  have hq1 : ncases / nfolds * nfolds ≤ ncases - 0 := Nat.div_mul_le_self ncases nfolds
  have hq2 : ncases - 0 ≤ (ncases / nfolds + 1) * nfolds := by
    have := Nat.lt_succ_iff.mpr (Nat.le_refl (ncases / nfolds))
    exact Nat.le_of_lt ((Nat.div_lt_iff_lt_mul (by omega)).mp this)
  have hq : 1 ≤ ncases / nfolds := (Nat.le_div_iff_mul_le (by omega)).mpr (by omega)
  obtain ⟨a1, a2, a3, a4, a5, a6, a7, a8, a9⟩ :=
    foldLoop_spec ncases nfolds (ncases / nfolds) nfolds 0 0 (by omega) (by omega) hq1 hq2
  have hne : foldBounds ncases nfolds ≠ [] := by
    intro h
    have : (foldBounds ncases nfolds).length = nfolds := a1
    rw [h] at this
    simp at this
    omega
  refine ⟨a1, ?_, ?_, by simpa using a3, ?_, a4, ?_, ?_, a8, fun j hj => a9 j (by omega) hj⟩
  · intro i f hf
    simpa using a7 i f hf
  · intro f hf
    obtain ⟨_, b2, b3⟩ := a2 f hf
    exact ⟨by omega, b2⟩
  · intro f hf g hg
    obtain ⟨_, _, b3⟩ := a2 f hf
    obtain ⟨_, _, c3⟩ := a2 g hg
    omega
  · obtain ⟨f, hf⟩ := Option.ne_none_iff_exists'.mp
      (fun h => hne (List.head?_eq_none_iff.mp h))
    exact ⟨f, hf, a5 f hf⟩
  · obtain ⟨f, hf⟩ := Option.ne_none_iff_exists'.mp
      (fun h => hne (List.getLast?_eq_none_iff.mp h))
    exact ⟨f, hf, a6 f hf⟩

theorem foldBounds_partition_witness :
    (1 ≤ 3 ∧ 3 ≤ 7) ∧
    (foldBounds 7 3).length = 3 ∧
    (∀ i f, (foldBounds 7 3)[i]? = some f → f.2 = f.1 + (7 - f.1) / (3 - i)) ∧
    (∀ f ∈ foldBounds 7 3, f.1 + 1 ≤ f.2 ∧ f.2 ≤ 7) ∧
    ((foldBounds 7 3).map fun f => f.2 - f.1).sum = 7 ∧
    (∀ f ∈ foldBounds 7 3, ∀ g ∈ foldBounds 7 3, f.2 - f.1 ≤ g.2 - g.1 + 1) ∧
    List.Chain' (fun f g : Nat × Nat => g.1 = f.2) (foldBounds 7 3) ∧
    (∃ f, (foldBounds 7 3).head? = some f ∧ f.1 = 0) ∧
    (∃ f, (foldBounds 7 3).getLast? = some f ∧ f.2 = 7) ∧
    List.Pairwise (fun f g : Nat × Nat => f.2 ≤ g.1) (foldBounds 7 3) ∧
    (∀ j, j < 7 → ∃ f ∈ foldBounds 7 3, f.1 ≤ j ∧ j < f.2) :=
  ⟨by decide, foldBounds_partition 7 3 (by decide) (by decide)⟩

/-! ## Walkforward -/

section WalkTheorems

variable {α : Type} [LinearOrderedField α]

theorem testLoop_eq (model : Option (α × α)) (data : List (α × α)) (n : Nat) :
    ∀ (p : Nat) (OOS : List α), p + n ≤ data.length →
      testLoop model data n p OOS =
        some (OOS ++ ((data.drop p).take n).map (oos_value model)) := by
  induction n with
  | zero => intro p OOS _; simp [testLoop]
  | succ n ih =>
    intro p OOS hp
    have hlt : p < data.length := by omega
    rw [testLoop, List.getElem?_eq_getElem hlt]
    simp only []
    rw [ih (p + 1) _ (by omega), List.drop_eq_getElem_cons hlt, List.take_succ_cons,
      List.map_cons, List.append_assoc, List.singleton_append]

theorem slice_getElem? {β : Type} (l : List β) (p n k : Nat) (hk : k < n) :
    ((l.drop p).take n)[k]? = l[p + k]? := by
  rw [List.getElem?_take_of_lt hk, List.getElem?_drop]

theorem slice_length {β : Type} (l : List β) (p n : Nat) (h : p + n ≤ l.length) :
    ((l.drop p).take n).length = n := by
  rw [List.length_take, List.length_drop]
  omega

theorem find_beta_take (ntrn : Int) (data : List (α × α)) :
    find_beta ntrn data = find_beta ntrn (data.take ntrn.toNat) := by
  unfold find_beta
  rw [List.take_take, Nat.min_self]

theorem walkLoop_mono (ncases ntrain ntest nomit : Nat) (data : List (α × α)) (fuel : Nat) :
    ∀ (trn istart : Nat) (OOS : List α) (log : List (WalkFold α))
      (r : List α × List (WalkFold α)),
      walkLoop ncases ntrain ntest nomit data fuel trn istart OOS log = some r →
      walkLoop ncases ntrain ntest nomit data (fuel + 1) trn istart OOS log = some r := by
  induction fuel with
  | zero => intro trn istart OOS log r h; simp [walkLoop] at h
  | succ fuel ih =>
    intro trn istart OOS log r h
    rw [walkLoop] at h ⊢
    dsimp only at h ⊢
    by_cases hc : trn + ntrain ≥ ncases
    · rw [if_pos hc] at h ⊢
      exact h
    · rw [if_neg hc] at h ⊢
      revert h
      cases testLoop (find_beta ((ntrain : Int) - (nomit : Int)) (data.drop trn)) data
          (if ntest > ncases - istart then ncases - istart else ntest) (trn + ntrain) OOS with
      | none => intro h; exact absurd h (by simp)
      | some OOS1 =>
        intro h
        exact ih _ _ _ _ _ h

theorem walkLoop_mono_le (ncases ntrain ntest nomit : Nat) (data : List (α × α))
    (fuel fuel1 : Nat) (hle : fuel ≤ fuel1) (trn istart : Nat) (OOS : List α)
    (log : List (WalkFold α)) (r : List α × List (WalkFold α))
    (h : walkLoop ncases ntrain ntest nomit data fuel trn istart OOS log = some r) :
    walkLoop ncases ntrain ntest nomit data fuel1 trn istart OOS log = some r := by
  induction hle with
  | refl => exact h
  | step _ ih => exact walkLoop_mono _ _ _ _ _ _ _ _ _ _ _ ih

theorem walkLoop_spec (ncases ntrain ntest nomit : Nat) (data : List (α × α))
    (hlen : data.length = ncases) (hnt : 1 ≤ ntest) (fuel : Nat) :
    ∀ (trn : Nat) (OOS : List α) (log : List (WalkFold α)),
      trn + ntrain ≤ ncases → ncases - (trn + ntrain) < fuel →
      ∃ (OOS1 : List α) (log1 : List (WalkFold α)),
        walkLoop ncases ntrain ntest nomit data fuel trn (trn + ntrain) OOS log
          = some (OOS ++ OOS1, log ++ log1) ∧
        OOS1.length = ncases - (trn + ntrain) ∧
        (∀ r ∈ log1, trn ≤ r.trn ∧ r.istart = r.trn + ntrain ∧
          r.ntrn = (ntrain : Int) - (nomit : Int) ∧
          r.model = find_beta ((ntrain : Int) - (nomit : Int)) (data.drop r.trn) ∧
          1 ≤ r.nt ∧ r.nt ≤ ntest ∧ r.istart + r.nt ≤ ncases ∧
          r.nt = (if ntest > ncases - r.istart then ncases - r.istart else ntest)) ∧
        (∀ r, log1.head? = some r → r.trn = trn) ∧
        List.Chain' (fun r s : WalkFold α =>
          s.trn = r.trn + r.nt ∧ s.istart = r.istart + r.nt) log1 ∧
        (∀ k, k < ncases - (trn + ntrain) → ∃ r ∈ log1, ∃ c : α × α,
          r.istart ≤ trn + ntrain + k ∧ trn + ntrain + k < r.istart + r.nt ∧
          data[trn + ntrain + k]? = some c ∧ OOS1[k]? = some (oos_value r.model c)) ∧
        (∀ r ∈ log1, ∀ i, i < r.nt → ∃ c : α × α, data[r.istart + i]? = some c ∧
          OOS1[r.istart - (trn + ntrain) + i]? = some (oos_value r.model c)) := by
  induction fuel with
  | zero => intro trn OOS log _ h; omega
  | succ fuel ih =>
    intro trn OOS log hle hfuel
    rw [walkLoop]
    dsimp only
    by_cases hc : trn + ntrain ≥ ncases
    · rw [if_pos hc]
      refine ⟨[], [], by simp, by simp; omega, by simp, by simp, by simp, ?_, by simp⟩
      intro k hk
      omega
    · rw [if_neg hc]
      obtain ⟨nt, hnt_def, hnt1, hnt2, hnt3⟩ : ∃ nt,
          (if ntest > ncases - (trn + ntrain) then ncases - (trn + ntrain) else ntest) = nt ∧
          1 ≤ nt ∧ nt ≤ ntest ∧ trn + ntrain + nt ≤ ncases := by
        refine ⟨_, rfl, ?_, ?_, ?_⟩ <;> split <;> omega
      rw [hnt_def, testLoop_eq _ data nt (trn + ntrain) OOS (by omega)]
      dsimp only
      have e : trn + ntrain + nt = trn + nt + ntrain := by omega
      rw [e]
      obtain ⟨OOS2, log2, h1, h2, h3, h4, h5, h6, h7⟩ :=
        ih (trn + nt) (OOS ++ ((data.drop (trn + ntrain)).take nt).map
            (oos_value (find_beta ((ntrain : Int) - (nomit : Int)) (data.drop trn))))
          (log ++ [⟨trn, trn + ntrain, (ntrain : Int) - (nomit : Int),
            find_beta ((ntrain : Int) - (nomit : Int)) (data.drop trn), nt⟩])
          (by omega) (by omega)
      have hsl : ((data.drop (trn + ntrain)).take nt).length = nt :=
        slice_length data _ _ (by omega)
      refine ⟨((data.drop (trn + ntrain)).take nt).map
          (oos_value (find_beta ((ntrain : Int) - (nomit : Int)) (data.drop trn))) ++ OOS2,
        ⟨trn, trn + ntrain, (ntrain : Int) - (nomit : Int),
          find_beta ((ntrain : Int) - (nomit : Int)) (data.drop trn), nt⟩ :: log2,
        ?_, ?_, ?_, ?_, ?_, ?_, ?_⟩
      · rw [h1]
        simp only [List.append_assoc, List.singleton_append]
      · rw [List.length_append, List.length_map, hsl, h2]
        omega
      · intro r hr
        rcases List.mem_cons.mp hr with rfl | hr
        · exact ⟨le_refl _, rfl, rfl, rfl, hnt1, hnt2, by simpa using hnt3, hnt_def.symm⟩
        · obtain ⟨b1, b2⟩ := h3 r hr
          exact ⟨by omega, b2⟩
      · intro r hr
        simp only [List.head?_cons, Option.some.injEq] at hr
        rw [← hr]
      · rw [List.chain'_cons']
        refine ⟨fun s hs => ⟨h4 s hs, ?_⟩, h5⟩
        obtain ⟨_, b2, _⟩ := h3 s (List.mem_of_mem_head? hs)
        rw [b2, h4 s hs]
        show trn + nt + ntrain = trn + ntrain + nt
        omega
      · intro k hk
        by_cases hkn : k < nt
        · have hidx : trn + ntrain + k < data.length := by omega
          refine ⟨_, List.mem_cons_self _ _, data[trn + ntrain + k], le_refl _ |>.trans
            (Nat.le_add_right _ _), by simpa using hkn, List.getElem?_eq_getElem hidx, ?_⟩
          rw [List.getElem?_append_left (by rw [List.length_map, hsl]; exact hkn),
            List.getElem?_map, slice_getElem? data _ _ _ hkn, List.getElem?_eq_getElem hidx]
          rfl
        · obtain ⟨r, hr, c, c1, c2, c3, c4⟩ := h6 (k - nt) (by omega)
          have e2 : trn + nt + ntrain + (k - nt) = trn + ntrain + k := by omega
          rw [e2] at c1 c2 c3
          refine ⟨r, List.mem_cons_of_mem _ hr, c, c1, c2, c3, ?_⟩
          rw [List.getElem?_append_right (by rw [List.length_map, hsl]; omega),
            List.length_map, hsl]
          exact c4
      · intro r hr i hi
        rcases List.mem_cons.mp hr with rfl | hr
        · have hi1 : i < nt := hi
          have hidx : trn + ntrain + i < data.length := by omega
          refine ⟨data[trn + ntrain + i], List.getElem?_eq_getElem hidx, ?_⟩
          simp only [Nat.sub_self, Nat.zero_add]
          rw [List.getElem?_append_left (by rw [List.length_map, hsl]; exact hi1),
            List.getElem?_map, slice_getElem? data _ _ _ hi1, List.getElem?_eq_getElem hidx]
          rfl
        · obtain ⟨c, c1, c2⟩ := h7 r hr i hi
          obtain ⟨b1, b2, _⟩ := h3 r hr
          refine ⟨c, c1, ?_⟩
          rw [List.getElem?_append_right (by rw [List.length_map, hsl]; omega),
            List.length_map, hsl]
          have e3 : r.istart - (trn + ntrain) + i - nt = r.istart - (trn + nt + ntrain) + i := by
            omega
          rw [e3]
          exact c2

/-- C5. For `ncases > ntrain >= 1`, `ntest >= 1` and every `omit >= 0` the
walkforward loop terminates (every allowance of at least `ncases` passes gives
the same result), `n_OOS_W = ncases - ntrain` (so never more, and in particular
when `ntest` divides `ncases - ntrain`), and record `k` is the sign-rule value
of case `ntrain + k` under the model fitted in the pass that tests that case. -/
theorem walkforward_oos (ncases ntrain ntest nomit : Nat) (data : List (α × α))
    (hlen : data.length = ncases) (h1 : 1 ≤ ntrain) (h2 : ntrain < ncases) (h3 : 1 ≤ ntest) :
    ∃ (OOS : List α) (log : List (WalkFold α)),
      (∀ fuel, ncases ≤ fuel →
        walkforward ncases ntrain ntest nomit data fuel = some (OOS, log)) ∧
      OOS.length = ncases - ntrain ∧
      OOS.length ≤ ncases - ntrain ∧
      (ntest ∣ ncases - ntrain → OOS.length = ncases - ntrain) ∧
      (∀ k, k < ncases - ntrain → ∃ r ∈ log, ∃ c : α × α,
        r.model = find_beta r.ntrn (data.drop r.trn) ∧
        r.istart ≤ ntrain + k ∧ ntrain + k < r.istart + r.nt ∧
        data[ntrain + k]? = some c ∧
        OOS[k]? = some (oos_value r.model c) ∧
        OOS[k]? = some (if (match r.model with
                            | some (beta, constant) => decide (beta * c.1 + constant > 0)
                            | none => false) then c.2 else -c.2)) := by
  obtain ⟨OOS, log, a1, a2, a3, a4, a5, a6, a7⟩ :=
    walkLoop_spec ncases ntrain ntest nomit data hlen h3 ncases 0 [] [] (by omega) (by omega)
  simp only [Nat.zero_add, List.nil_append] at a1 a2 a3 a6
  refine ⟨OOS, log, ?_, a2, le_of_eq a2, fun _ => a2, ?_⟩
  · intro fuel hf
    exact walkLoop_mono_le _ _ _ _ _ ncases fuel hf _ _ _ _ _ a1
  · intro k hk
    obtain ⟨r, hr, c, c1, c2, c3, c4⟩ := a6 k hk
    obtain ⟨_, _, b3, b4, _⟩ := a3 r hr
    refine ⟨r, hr, c, by rw [b4, b3], c1, c2, c3, c4, ?_⟩
    rw [c4]
    congr 1
    unfold oos_value
    cases r.model with
    | none => simp
    | some m => simp

theorem walkforward_oos_witness :
    (([(1, 10), (2, -20), (-3, 30), (4, 40), (5, -50), (-6, 60), (7, 70)] :
        List (ℚ × ℚ)).length = 7 ∧ 1 ≤ 2 ∧ 2 < 7 ∧ 1 ≤ 2) ∧
    ∃ (OOS : List ℚ) (log : List (WalkFold ℚ)),
      (∀ fuel, 7 ≤ fuel →
        walkforward 7 2 2 1 [(1, 10), (2, -20), (-3, 30), (4, 40), (5, -50), (-6, 60), (7, 70)]
          fuel = some (OOS, log)) ∧
      OOS.length = 7 - 2 :=
  ⟨⟨rfl, by decide, by decide, by decide⟩,
   (walkforward_oos 7 2 2 1 [(1, 10), (2, -20), (-3, 30), (4, 40), (5, -50), (-6, 60), (7, 70)]
      rfl (by decide) (by decide) (by decide)).imp fun _ h =>
        h.imp fun _ h2 => ⟨h2.1, h2.2.1⟩⟩

/-- C6. In every pass of the walkforward loop, with OOS pointer `p` (the
`istart` of the pass; `ntrain` in the first pass, advanced by the number of
cases just tested afterwards), `find_beta` is called with `ntrain - omit` on the
window that starts at case `p - ntrain`: it fits the `ntrain - omit` cases with
indices in `[p - ntrain, p - omit)`. Every training index is below every index
tested with that model (those are `p .. p + nt - 1`), and the window start
advances by `nt`, the number of cases tested. -/
theorem walkforward_training_window (ncases ntrain ntest nomit : Nat) (data : List (α × α))
    (hlen : data.length = ncases) (h1 : 1 ≤ ntrain) (h2 : ntrain < ncases) (h3 : 1 ≤ ntest) :
    ∃ (OOS : List α) (log : List (WalkFold α)),
      (∀ fuel, ncases ≤ fuel →
        walkforward ncases ntrain ntest nomit data fuel = some (OOS, log)) ∧
      (∃ r, log.head? = some r ∧ r.istart = ntrain) ∧
      (∀ r ∈ log,
        r.trn + ntrain = r.istart ∧
        r.ntrn = (ntrain : Int) - (nomit : Int) ∧
        r.model = find_beta r.ntrn (data.drop r.trn) ∧
        r.model = find_beta ((ntrain : Int) - (nomit : Int))
          ((data.drop (r.istart - ntrain)).take (ntrain - nomit)) ∧
        ((data.drop (r.istart - ntrain)).take (ntrain - nomit)).length = ntrain - nomit ∧
        (∀ j, j < ntrain - nomit →
          ((data.drop (r.istart - ntrain)).take (ntrain - nomit))[j]?
            = data[r.istart - ntrain + j]? ∧
          (r.istart : Int) - ntrain ≤ ((r.istart - ntrain + j : Nat) : Int) ∧
          ((r.istart - ntrain + j : Nat) : Int) < (r.istart : Int) - nomit ∧
          ∀ i, r.istart - ntrain + j < r.istart + i) ∧
        r.nt = (if ntest > ncases - r.istart then ncases - r.istart else ntest) ∧
        (∀ i, i < r.nt → ∃ c : α × α, data[r.istart + i]? = some c ∧
          OOS[r.istart - ntrain + i]? = some (oos_value r.model c))) ∧
      List.Chain' (fun r s : WalkFold α =>
        s.trn = r.trn + r.nt ∧ s.istart = r.istart + r.nt) log := by
  obtain ⟨OOS, log, a1, a2, a3, a4, a5, a6, a7⟩ :=
    walkLoop_spec ncases ntrain ntest nomit data hlen h3 ncases 0 [] [] (by omega) (by omega)
  simp only [Nat.zero_add, List.nil_append] at a1 a2 a3 a4 a6 a7
  have hne : log ≠ [] := by
    intro h
    obtain ⟨r, hr, _⟩ := a6 0 (by omega)
    rw [h] at hr
    cases hr
  refine ⟨OOS, log, ?_, ?_, ?_, ?_⟩
  · intro fuel hf
    exact walkLoop_mono_le _ _ _ _ _ ncases fuel hf _ _ _ _ _ a1
  · obtain ⟨r, hr⟩ := Option.ne_none_iff_exists'.mp
      (fun h => hne (List.head?_eq_none_iff.mp h))
    have hmem : r ∈ log := List.mem_of_mem_head? hr
    obtain ⟨_, b2, _⟩ := a3 r hmem
    exact ⟨r, hr, by rw [b2, a4 r hr]; omega⟩
  · intro r hr
    obtain ⟨_, b2, b3, b4, b5, b6, b7, b8⟩ := a3 r hr
    have e1 : r.istart - ntrain = r.trn := by omega
    have e2 : ((ntrain : Int) - (nomit : Int)).toNat = ntrain - nomit := by omega
    refine ⟨by omega, b3, by rw [b4, b3], ?_, ?_, ?_, ?_, a7 r hr⟩
    · rw [b4, e1, find_beta_take, e2]
    · rw [e1]
      apply slice_length
      omega
    · intro j hj
      refine ⟨slice_getElem? data _ _ _ hj, by omega, by omega, fun i => by omega⟩
    · exact b8
  · exact a5

theorem walkforward_training_window_witness :
    (([(1, 10), (2, -20), (-3, 30), (4, 40), (5, -50), (-6, 60), (7, 70)] :
        List (ℚ × ℚ)).length = 7 ∧ 1 ≤ 3 ∧ 3 < 7 ∧ 1 ≤ 2) ∧
    ∃ (OOS : List ℚ) (log : List (WalkFold ℚ)),
      (∀ fuel, 7 ≤ fuel →
        walkforward 7 3 2 1 [(1, 10), (2, -20), (-3, 30), (4, 40), (5, -50), (-6, 60), (7, 70)]
          fuel = some (OOS, log)) ∧
      (∃ r, log.head? = some r ∧ r.istart = 3) :=
  ⟨⟨rfl, by decide, by decide, by decide⟩,
   (walkforward_training_window 7 3 2 1
      [(1, 10), (2, -20), (-3, 30), (4, 40), (5, -50), (-6, 60), (7, 70)]
      rfl (by decide) (by decide) (by decide)).imp fun _ h =>
        h.imp fun _ h2 => ⟨h2.1, h2.2.1⟩⟩

end WalkTheorems

/-! ## Cross validation: the working buffer -/

section PrepareLemmas

variable {α : Type}

theorem memcpy_eq (dst : List (α × α)) (d : Nat) (src : List (α × α)) (s len : Nat)
    (hs : s + len ≤ src.length) (hd : d + len ≤ dst.length) :
    memcpy dst d src s (len : Int) =
      some (dst.take d ++ (src.drop s).take len ++ dst.drop (d + len)) := by
  unfold memcpy
  have h0 : ¬ ((len : Int) < 0) := by omega
  rw [if_neg h0]
  simp only [Int.toNat_ofNat]
  rw [if_pos ⟨hs, hd⟩]

/-- A copy into the front part `X` of a buffer `X ++ S` leaves `S` alone. -/
theorem memcpy_front (X S : List (α × α)) (d : Nat) (src : List (α × α)) (s len : Nat)
    (hs : s + len ≤ src.length) (hd : d + len ≤ X.length) :
    memcpy (X ++ S) d src s (len : Int) =
      some ((X.take d ++ (src.drop s).take len ++ X.drop (d + len)) ++ S) := by
  rw [memcpy_eq _ _ _ _ _ hs (by rw [List.length_append]; omega)]
  have h1 : d ≤ X.length := by omega
  rw [List.take_append_of_le_length h1, List.drop_append_of_le_length hd]
  simp only [List.append_assoc]

theorem front_length (X : List (α × α)) (d : Nat) (src : List (α × α)) (s len : Nat)
    (hs : s + len ≤ src.length) (hd : d + len ≤ X.length) :
    (X.take d ++ (src.drop s).take len ++ X.drop (d + len)).length = X.length := by
  simp only [List.length_append, List.length_take, List.length_drop]
  omega

/-- The shape shared by the three buffered cases: a front part `Y` of
`ncases - n` cases that begins with the training cases, followed by the
held-out block `S`. -/
theorem buffered_shape (ncases n m : Nat) (Y S A B : List (α × α))
    (hn : n ≤ ncases) (hY : Y.length = ncases - n) (hS : S.length = n)
    (hfront : Y.take m = A ++ B) (hm : m ≤ ncases - n) :
    (Y ++ S).length = ncases ∧ (Y ++ S).take m = A ++ B ∧ (Y ++ S).drop (ncases - n) = S := by
  refine ⟨by rw [List.length_append, hY, hS]; omega, ?_, List.drop_left' hY⟩
  rw [List.take_append_of_le_length (by omega), hfront]

theorem xvalPrepare_buffered (ncases nfolds nomit : Nat) (orig data : List (α × α))
    (ifold istart n : Nat) (hlo : orig.length = ncases) (hld : data.length = ncases)
    (homit : nomit ≠ 0) (hstop : istart + n ≤ ncases)
    (hfirst : ifold = 0 → istart = 0 ∧ n + nomit ≤ ncases)
    (hlast : ifold ≠ 0 → ifold = nfolds - 1 → istart + n = ncases ∧ nomit ≤ istart) :
    ∃ d : List (α × α),
      xvalPrepare ncases nfolds nomit orig ifold data istart n =
        some (d, (((istart - nomit) + (ncases - (istart + n + nomit)) : Nat) : Int)) ∧
      d.length = ncases ∧
      d.take ((istart - nomit) + (ncases - (istart + n + nomit))) =
        orig.take (istart - nomit) ++ orig.drop (istart + n + nomit) ∧
      d.drop (ncases - n) = (orig.drop istart).take n := by
  have hXlen : (data.take (ncases - n)).length = ncases - n := by
    rw [List.length_take]; omega
  have hSlen : ((orig.drop istart).take n).length = n := by
    rw [List.length_take, List.length_drop]; omega
  have h1 : memcpy data (ncases - n) orig istart (n : Int) =
      some (data.take (ncases - n) ++ (orig.drop istart).take n) := by
    rw [memcpy_eq _ _ _ _ _ (by omega) (by omega)]
    have : ncases - n + n = data.length := by omega
    rw [this, List.drop_length, List.append_nil]
  unfold xvalPrepare
  dsimp only
  rw [if_pos homit, h1]
  dsimp only
  by_cases hf : ifold = 0
  · obtain ⟨hi0, hn⟩ := hfirst hf
    subst hi0
    have e1 : ((ncases : Int) - ((0 + n : Nat) : Int) - (nomit : Int))
        = ((ncases - (n + nomit) : Nat) : Int) := by omega
    have e2 : (ncases : Int) - ((n : Int) + (nomit : Int))
        = (((0 - nomit) + (ncases - (0 + n + nomit)) : Nat) : Int) := by omega
    rw [if_pos hf, e1, memcpy_front _ _ _ _ _ _ (by omega) (by omega)]
    dsimp only
    rw [e2]
    refine ⟨_, rfl, buffered_shape ncases n _ _ _ _ _ (by omega)
      (by rw [front_length _ _ _ _ _ (by omega) (by omega), hXlen]) hSlen ?_ (by omega)⟩
    have hT : ((orig.drop (0 + n + nomit)).take (ncases - (n + nomit))).length
        = 0 - nomit + (ncases - (0 + n + nomit)) := by
      rw [List.length_take, List.length_drop]; omega
    rw [List.take_zero, List.nil_append, List.take_left' hT,
      List.take_of_length_le (by rw [List.length_drop]; omega)]
    simp
  · rw [if_neg hf]
    by_cases hl : ifold = nfolds - 1
    · obtain ⟨hstopN, hle⟩ := hlast hf hl
      have e1 : ((istart : Int) - (nomit : Int)) = ((istart - nomit : Nat) : Int) := by omega
      have e2 : (ncases : Int) - ((n : Int) + (nomit : Int))
          = (((istart - nomit) + (ncases - (istart + n + nomit)) : Nat) : Int) := by omega
      rw [if_pos hl, e1, memcpy_front _ _ _ _ _ _ (by omega) (by omega)]
      dsimp only
      rw [e2]
      refine ⟨_, rfl, buffered_shape ncases n _ _ _ _ _ (by omega)
        (by rw [front_length _ _ _ _ _ (by omega) (by omega), hXlen]) hSlen ?_
        (by omega)⟩
      have hT : ((orig.drop 0).take (istart - nomit)).length
          = istart - nomit + (ncases - (istart + n + nomit)) := by
        rw [List.length_take, List.length_drop]; omega
      have hdrop : orig.drop (istart + n + nomit) = [] :=
        List.drop_of_length_le (by omega)
      rw [List.take_zero, List.nil_append, List.take_left' hT, hdrop, List.append_nil,
        List.drop_zero]
    · rw [if_neg hl]
      have hF : ∃ Y1 : List (α × α),
          (if istart > nomit then
            match memcpy (data.take (ncases - n) ++ (orig.drop istart).take n) 0 orig 0
                ((istart : Int) - (nomit : Int)) with
            | none => none
            | some d2 => some (d2, istart - nomit)
          else some (data.take (ncases - n) ++ (orig.drop istart).take n, 0))
            = some (Y1 ++ (orig.drop istart).take n, istart - nomit) ∧
          Y1.length = ncases - n ∧
          Y1.take (istart - nomit) = orig.take (istart - nomit) := by
        by_cases hgt : istart > nomit
        · have e1 : ((istart : Int) - (nomit : Int)) = ((istart - nomit : Nat) : Int) := by
            omega
          rw [if_pos hgt, e1, memcpy_front _ _ _ _ _ _ (by omega) (by omega)]
          refine ⟨_, rfl, by rw [front_length _ _ _ _ _ (by omega) (by omega), hXlen], ?_⟩
          have hT : ((orig.drop 0).take (istart - nomit)).length = istart - nomit := by
            rw [List.length_take, List.length_drop]; omega
          rw [List.take_zero, List.nil_append, List.take_left' hT, List.drop_zero]
        · have e0 : istart - nomit = 0 := by omega
          rw [if_neg hgt, e0]
          exact ⟨_, rfl, hXlen, by simp⟩
      obtain ⟨Y1, hFeq, hY1len, hY1take⟩ := hF
      rw [hFeq]
      dsimp only
      by_cases hgt : ncases > istart + n + nomit
      · have e3 : ((ncases : Int) - ((istart + n : Nat) : Int) - (nomit : Int))
            = ((ncases - (istart + n + nomit) : Nat) : Int) := by omega
        rw [if_pos hgt, e3, memcpy_front _ _ _ _ _ _ (by omega) (by omega)]
        dsimp only
        rw [← Nat.cast_add]
        refine ⟨_, rfl, buffered_shape ncases n _ _ _ _ _ (by omega)
          (by rw [front_length _ _ _ _ _ (by omega) (by omega), hY1len]) hSlen ?_ (by omega)⟩
        have hT : (Y1.take (istart - nomit) ++ (orig.drop (istart + n + nomit)).take
            (ncases - (istart + n + nomit))).length
            = istart - nomit + (ncases - (istart + n + nomit)) := by
          rw [List.length_append, List.length_take, List.length_take, List.length_drop]
          omega
        have hT2 : (orig.drop (istart + n + nomit)).take (ncases - (istart + n + nomit))
            = orig.drop (istart + n + nomit) :=
          List.take_of_length_le (by rw [List.length_drop]; omega)
        rw [List.take_left' hT, hY1take, hT2]
      · have e0 : ncases - (istart + n + nomit) = 0 := by omega
        have hdrop : orig.drop (istart + n + nomit) = [] :=
          List.drop_of_length_le (by omega)
        rw [if_neg hgt, e0, Nat.add_zero, hdrop, List.append_nil]
        have hsh := buffered_shape ncases n (istart - nomit) Y1 ((orig.drop istart).take n)
          (orig.take (istart - nomit)) [] (by omega) hY1len hSlen
          (by rw [List.append_nil]; exact hY1take) (by omega)
        rw [List.append_nil] at hsh
        exact ⟨_, rfl, hsh⟩

theorem swap_getElem? (data : List (α × α)) (i t : Nat) (a b : α × α)
    (ha : data[i]? = some a) (hb : data[t]? = some b) (m : Nat) :
    ((data.set i b).set t a)[m]? =
      if m = t then data[i]? else if m = i then data[t]? else data[m]? := by
  have hi : i < data.length := (List.getElem?_eq_some.mp ha).1
  have ht : t < data.length := (List.getElem?_eq_some.mp hb).1
  rw [List.getElem?_set, List.getElem?_set, List.length_set]
  by_cases h1 : m = t
  · subst h1
    simp [ht, ha]
  · by_cases h2 : m = i
    · subst h2
      have h3 : ¬ t = m := fun h => h1 h.symm
      simp [hi, hb, h1, h3]
    · have h3 : ¬ t = m := fun h => h1 h.symm
      have h4 : ¬ i = m := fun h => h2 h.symm
      simp [h1, h2, h3, h4]

/-- The swap loop exchanges the block that starts at `i` with the block that
starts at `ncases-n_in_fold+i-istart`, provided the first lies below the tail
block and the second inside it. -/
theorem swapLoop_spec (ncases nf istart : Nat) (n : Nat) :
    ∀ (i : Nat) (data : List (α × α)), data.length = ncases → nf ≤ ncases → istart ≤ i →
      i + n ≤ ncases - nf → i - istart + n ≤ nf →
      ∃ d : List (α × α), swapLoop ncases nf istart n i data = some d ∧ d.length = ncases ∧
        ∀ j, d[j]? =
          if i ≤ j ∧ j < i + n then data[ncases - nf + j - istart]?
          else if ncases - nf + i - istart ≤ j ∧ j < ncases - nf + i - istart + n then
            data[j + istart - (ncases - nf)]?
          else data[j]? := by
  induction n with
  | zero =>
    intro i data hlen _ _ _ _
    refine ⟨data, rfl, hlen, fun j => ?_⟩
    have h1 : ¬ (i ≤ j ∧ j < i + 0) := by omega
    have h2 : ¬ (ncases - nf + i - istart ≤ j ∧ j < ncases - nf + i - istart + 0) := by omega
    rw [if_neg h1, if_neg h2]
  | succ n ih =>
    intro i data hlen hnf hi hsrc htgt
    have hilt : i < data.length := by omega
    have htlt : ncases - nf + i - istart < data.length := by omega
    have ha := List.getElem?_eq_getElem hilt
    have hb := List.getElem?_eq_getElem htlt
    rw [swapLoop, ha, hb]
    dsimp only
    obtain ⟨d, hd1, hd2, hd3⟩ := ih (i + 1)
      ((data.set i data[ncases - nf + i - istart]).set (ncases - nf + i - istart) data[i])
      (by rw [List.length_set, List.length_set]; exact hlen) hnf (by omega) (by omega)
      (by omega)
    refine ⟨d, hd1, hd2, fun j => ?_⟩
    rw [hd3 j, swap_getElem? data _ _ _ _ ha hb, swap_getElem? data _ _ _ _ ha hb,
      swap_getElem? data _ _ _ _ ha hb]
    split_ifs <;> first | rfl | (congr 1; omega)

/-- The effect of swapping a fold that is not the last one to the end of the
dataset, and of swapping it back. -/
theorem swap_out_spec (ncases n istart : Nat) (orig : List (α × α))
    (hlo : orig.length = ncases) (hdisj : istart + n ≤ ncases - n) (hn : n ≤ ncases) :
    ∃ d : List (α × α), swapLoop ncases n istart n istart orig = some d ∧
      d.length = ncases ∧
      d.drop (ncases - n) = (orig.drop istart).take n ∧
      d.take (ncases - n) = orig.take istart ++ (orig.drop (ncases - n)).take n ++
        (orig.drop (istart + n)).take (ncases - n - (istart + n)) ∧
      swapLoop ncases n istart n istart d = some orig := by
  obtain ⟨d, hd1, hd2, hd3⟩ := swapLoop_spec ncases n istart n istart orig hlo hn
    (le_refl _) hdisj (by omega)
  obtain ⟨d', hb1, hb2, hb3⟩ := swapLoop_spec ncases n istart n istart d hd2 hn
    (le_refl _) hdisj (by omega)
  refine ⟨d, hd1, hd2, ?_, ?_, ?_⟩
  · apply List.ext_getElem?
    intro k
    rw [List.getElem?_drop, hd3, List.getElem?_take, List.getElem?_drop]
    have hnone : ∀ m, ncases ≤ m → orig[m]? = none := fun m hm =>
      List.getElem?_eq_none (by omega)
    split_ifs <;> first | (congr 1; omega) | (apply hnone; omega)
  · apply List.ext_getElem?
    intro k
    rw [List.getElem?_take, hd3]
    simp only [List.getElem?_append, List.length_append, List.length_take, List.length_drop,
      List.getElem?_take, List.getElem?_drop, hlo]
    split_ifs <;> first | rfl | (congr 1; omega)
  · rw [hb1]
    congr 1
    apply List.ext_getElem?
    intro k
    rw [hb3, hd3, hd3, hd3]
    split_ifs <;> first | rfl | (congr 1; omega)

theorem outside_perm (ncases n istart : Nat) (orig : List (α × α))
    (hlo : orig.length = ncases) (hdisj : istart + n ≤ ncases - n) (hn : n ≤ ncases) :
    List.Perm
      (orig.take istart ++ (orig.drop (ncases - n)).take n ++
        (orig.drop (istart + n)).take (ncases - n - (istart + n)))
      (orig.take istart ++ orig.drop (istart + n)) := by
  have h1 : orig.drop (istart + n) =
      (orig.drop (istart + n)).take (ncases - n - (istart + n)) ++
        (orig.drop (ncases - n)).take n := by
    have e : istart + n + (ncases - n - (istart + n)) = ncases - n := by omega
    have h2 : (orig.drop (ncases - n)).take n = orig.drop (ncases - n) :=
      List.take_of_length_le (by rw [List.length_drop]; omega)
    have h3 : orig.drop (ncases - n) =
        (orig.drop (istart + n)).drop (ncases - n - (istart + n)) := by
      rw [List.drop_drop, e]
    rw [h2, h3, List.take_append_drop]
  rw [List.append_assoc]
  conv_rhs => rw [h1]
  exact List.Perm.append_left _ List.perm_append_comm

/-- Lines 451-467 on an unperturbed working buffer. -/
theorem xvalPrepare_unbuffered (ncases nfolds : Nat) (orig save : List (α × α))
    (ifold istart n : Nat) (hlo : orig.length = ncases) (hstop : istart + n ≤ ncases)
    (hnonlast : ifold < nfolds - 1 → istart + n ≤ ncases - n)
    (hlast : ¬ ifold < nfolds - 1 → istart + n = ncases) :
    ∃ d : List (α × α),
      xvalPrepare ncases nfolds 0 save ifold orig istart n
        = some (d, ((ncases - n : Nat) : Int)) ∧
      d.length = ncases ∧
      d.drop (ncases - n) = (orig.drop istart).take n ∧
      List.Perm (d.take (ncases - n)) (orig.take istart ++ orig.drop (istart + n)) ∧
      (ifold < nfolds - 1 → swapLoop ncases n istart n istart d = some orig) ∧
      (¬ ifold < nfolds - 1 → d = orig) := by
  have e : (ncases : Int) - (n : Int) = ((ncases - n : Nat) : Int) := by omega
  unfold xvalPrepare
  dsimp only
  rw [if_neg (by simp)]
  by_cases hl : ifold < nfolds - 1
  · obtain ⟨d, hd1, hd2, hd3, hd4, hd5⟩ :=
      swap_out_spec ncases n istart orig hlo (hnonlast hl) (by omega)
    rw [if_pos hl, hd1]
    dsimp only
    rw [e]
    refine ⟨d, rfl, hd2, hd3, ?_, fun _ => hd5, fun h => absurd hl h⟩
    rw [hd4]
    exact outside_perm ncases n istart orig hlo (hnonlast hl) (by omega)
  · have hN := hlast hl
    have e2 : (ncases : Int) - (n : Int) - (istart : Int) = 0 := by omega
    rw [if_neg hl, if_pos e2, e]
    refine ⟨orig, rfl, hlo, ?_, ?_, fun h => absurd h hl, fun _ => rfl⟩
    · have e3 : ncases - n = istart := by omega
      rw [e3]
      exact (List.take_of_length_le (by rw [List.length_drop]; omega)).symm
    · have e3 : ncases - n = istart := by omega
      have hdrop : orig.drop (istart + n) = [] := List.drop_of_length_le (by omega)
      rw [e3, hdrop, List.append_nil]

end PrepareLemmas

/-! ## Cross validation: one pass and the whole loop -/

section XvalLemmas

variable {α : Type} [LinearOrderedField α]

theorem fold_size_facts (ncases nfolds ifold istart n : Nat) (hle : istart ≤ ncases)
    (hif : ifold < nfolds) (hn : n = (ncases - istart) / (nfolds - ifold)) :
    istart + n ≤ ncases ∧ (¬ ifold < nfolds - 1 → istart + n = ncases) ∧
      (ifold < nfolds - 1 → istart + n ≤ ncases - n) := by
  have h1 : n ≤ ncases - istart := by rw [hn]; exact Nat.div_le_self _ _
  refine ⟨by omega, ?_, ?_⟩
  · intro h
    have hk : nfolds - ifold = 1 := by omega
    rw [hk, Nat.div_one] at hn
    omega
  · intro h
    have h2 : n * (nfolds - ifold) ≤ ncases - istart := by
      rw [hn]; exact Nat.div_mul_le_self _ _
    have h3 : n * 2 ≤ n * (nfolds - ifold) := Nat.mul_le_mul_left n (by omega)
    omega

theorem xvalFold_spec (ncases nfolds nomit : Nat) (orig : List (α × α)) (ifold n : Nat)
    (st : XvalState α) (hlo : orig.length = ncases) (hld : st.data.length = ncases)
    (hd0 : nomit = 0 → st.data = orig) (hnd : st.n_done = st.istart)
    (hle : st.istart ≤ ncases) (hif : ifold < nfolds)
    (hn : n = (ncases - st.istart) / (nfolds - ifold))
    (H3 : nomit ≠ 0 → ifold = 0 → st.istart = 0 ∧ n + nomit ≤ ncases)
    (H4 : nomit ≠ 0 → ifold ≠ 0 → ifold = nfolds - 1 → nomit ≤ st.istart) :
    ∃ (d dback : List (α × α)) (ntrn : Int),
      xvalFold ncases nfolds nomit orig ifold st =
        some ⟨dback, st.istart + n, st.n_done + n,
          st.OOS ++ ((orig.drop st.istart).take n).map (oos_value (find_beta ntrn d)),
          st.log ++ [⟨ifold, st.istart, st.istart + n, ntrn, d, find_beta ntrn d⟩]⟩ ∧
      st.istart + n ≤ ncases ∧ (ifold = nfolds - 1 → st.istart + n = ncases) ∧
      dback.length = ncases ∧ (nomit = 0 → dback = orig) ∧
      d.length = ncases ∧ d.drop (ncases - n) = (orig.drop st.istart).take n ∧
      (nomit = 0 → ntrn = ((ncases - n : Nat) : Int) ∧
        List.Perm (d.take (ncases - n)) (orig.take st.istart ++ orig.drop (st.istart + n))) ∧
      (nomit ≠ 0 →
        ntrn = (((st.istart - nomit) + (ncases - (st.istart + n + nomit)) : Nat) : Int) ∧
        d.take ((st.istart - nomit) + (ncases - (st.istart + n + nomit))) =
          orig.take (st.istart - nomit) ++ orig.drop (st.istart + n + nomit)) := by
  obtain ⟨f1, f2, f3⟩ := fold_size_facts ncases nfolds ifold st.istart n hle hif hn
  have htest : ∀ (model : Option (α × α)) (d : List (α × α)), d.length = ncases →
      d.drop (ncases - n) = (orig.drop st.istart).take n →
      testLoop model d n (ncases - n) st.OOS =
        some (st.OOS ++ ((orig.drop st.istart).take n).map (oos_value model)) := by
    intro model d hdl hdd
    rw [testLoop_eq model d n (ncases - n) st.OOS (by omega), hdd, List.take_take,
      Nat.min_self]
  unfold xvalFold
  rw [hnd, ← hn]
  dsimp only
  by_cases h0 : nomit = 0
  · subst h0
    rw [hd0 rfl]
    obtain ⟨d, hp, hdl, hdd, hperm, hback, hlast⟩ :=
      xvalPrepare_unbuffered ncases nfolds orig orig ifold st.istart n hlo f1 f3 f2
    rw [hp]
    dsimp only
    rw [htest _ d hdl hdd]
    dsimp only
    by_cases hl : ifold < nfolds - 1
    · rw [if_pos ⟨rfl, hl⟩, hback hl]
      exact ⟨d, orig, _, rfl, f1, fun h => by omega, hlo, fun _ => rfl, hdl, hdd,
        fun _ => ⟨rfl, hperm⟩, fun h => absurd rfl h⟩
    · have hnl : ¬ (0 = 0 ∧ ifold < nfolds - 1) := fun h => hl h.2
      rw [if_neg hnl]
      exact ⟨d, d, _, rfl, f1, fun _ => f2 hl, hdl, fun _ => hlast hl, hdl, hdd,
        fun _ => ⟨rfl, hperm⟩, fun h => absurd rfl h⟩
  · obtain ⟨d, hp, hdl, hdt, hdd⟩ :=
      xvalPrepare_buffered ncases nfolds nomit orig st.data ifold st.istart n hlo hld h0 f1
        (H3 h0) (fun h1 h2 => ⟨f2 (by omega), H4 h0 h1 h2⟩)
    rw [hp]
    dsimp only
    rw [htest _ d hdl hdd]
    dsimp only
    have hnl : ¬ (nomit = 0 ∧ ifold < nfolds - 1) := fun h => h0 h.1
    rw [if_neg hnl]
    exact ⟨d, d, _, rfl, f1, fun h => f2 (by omega), hdl, fun h => absurd h h0, hdl, hdd,
      fun h => absurd h h0, fun _ => ⟨rfl, hdt⟩⟩

theorem xvalLoop_spec (ncases nfolds nomit : Nat) (orig : List (α × α))
    (hlo : orig.length = ncases) (k : Nat) :
    ∀ (ifold : Nat) (st : XvalState α), ifold + k = nfolds → st.data.length = ncases →
      (nomit = 0 → st.data = orig) → st.n_done = st.istart → st.istart ≤ ncases →
      (k = 0 → st.istart = ncases) →
      (nomit ≠ 0 → ifold = 0 →
        st.istart = 0 ∧ (ncases - st.istart) / (nfolds - ifold) + nomit ≤ ncases) →
      (nomit ≠ 0 → 2 ≤ nfolds →
        ∀ f, (foldLoop ncases nfolds k ifold st.istart st.istart).getLast? = some f →
          nomit ≤ f.1) →
      ∃ (st1 : XvalState α) (OOS1 : List α) (log1 : List (XvalFold α)),
        xvalLoop ncases nfolds nomit orig k ifold st = some st1 ∧
        st1.OOS = st.OOS ++ OOS1 ∧ st1.log = st.log ++ log1 ∧
        st1.data.length = ncases ∧ (nomit = 0 → st1.data = orig) ∧
        OOS1.length = ncases - st.istart ∧
        log1.map (fun r => (r.istart, r.istop))
          = foldLoop ncases nfolds k ifold st.istart st.istart ∧
        (∀ i r, log1[i]? = some r → r.ifold = ifold + i) ∧
        (∀ r ∈ log1, st.istart ≤ r.istart ∧ r.istart ≤ r.istop ∧ r.istop ≤ ncases ∧
          r.model = find_beta r.ntrn r.data ∧ r.data.length = ncases ∧
          r.data.drop (ncases - (r.istop - r.istart))
            = (orig.drop r.istart).take (r.istop - r.istart) ∧
          (nomit = 0 → r.ntrn = ((ncases - (r.istop - r.istart) : Nat) : Int) ∧
            List.Perm (r.data.take (ncases - (r.istop - r.istart)))
              (orig.take r.istart ++ orig.drop r.istop)) ∧
          (nomit ≠ 0 →
            r.ntrn = (((r.istart - nomit) + (ncases - (r.istop + nomit)) : Nat) : Int) ∧
            r.data.take ((r.istart - nomit) + (ncases - (r.istop + nomit))) =
              orig.take (r.istart - nomit) ++ orig.drop (r.istop + nomit))) ∧
        (∀ j, st.istart ≤ j → j < ncases → ∃ r ∈ log1, ∃ c : α × α,
          r.istart ≤ j ∧ j < r.istop ∧ orig[j]? = some c ∧
          OOS1[j - st.istart]? = some (oos_value r.model c)) ∧
        (∀ r ∈ log1, ∀ i, i < r.istop - r.istart → ∃ c : α × α,
          orig[r.istart + i]? = some c ∧
          OOS1[r.istart - st.istart + i]? = some (oos_value r.model c)) := by
  induction k with
  | zero =>
    intro ifold st _ hld hd0 _ _ hk0 _ _
    have := hk0 rfl
    refine ⟨st, [], [], rfl, by simp, by simp, hld, hd0, by simp; omega, rfl, by simp,
      by simp, ?_, by simp⟩
    intro j h1 h2
    omega
  | succ k ih =>
    intro ifold st hK hld hd0 hnd hle _ H3 H4
    obtain ⟨n, hn⟩ : ∃ n, n = (ncases - st.istart) / (nfolds - ifold) := ⟨_, rfl⟩
    have hunf : foldLoop ncases nfolds (k + 1) ifold st.istart st.istart =
        (st.istart, st.istart + n) ::
          foldLoop ncases nfolds k (ifold + 1) (st.istart + n) (st.istart + n) := by
      rw [foldLoop, hn]
    rw [hunf] at H4
    rw [hunf]
    obtain ⟨d, dback, ntrn, hfold, g1, g2, g3, g4, g5, g6, g7, g8⟩ :=
      xvalFold_spec ncases nfolds nomit orig ifold n st hlo hld hd0 hnd hle (by omega) hn
        (by rw [hn]; exact H3)
        (by
          intro h0 h1 h2
          have hk : k = 0 := by omega
          subst hk
          exact H4 h0 (by omega) _ rfl)
    have hslen : ((orig.drop st.istart).take n).length = n :=
      slice_length orig _ _ (by omega)
    rw [xvalLoop, hfold]
    dsimp only
    obtain ⟨st1, OOS2, log2, i1, i2, i3, i4, i5, i6, i7, i8, i9, i10, i11⟩ :=
      ih (ifold + 1)
        ⟨dback, st.istart + n, st.n_done + n,
          st.OOS ++ ((orig.drop st.istart).take n).map (oos_value (find_beta ntrn d)),
          st.log ++ [⟨ifold, st.istart, st.istart + n, ntrn, d, find_beta ntrn d⟩]⟩
        (by omega) g3 g4 (by show st.n_done + _ = st.istart + _; rw [hnd]) g1
        (by intro hk; exact g2 (by omega)) (by intro _ h; omega)
        (by
          intro h0 h2 f hf
          apply H4 h0 h2 f
          rw [List.getLast?_cons]
          exact (congrArg (fun o : Option (Nat × Nat) => some (o.getD _)) hf).trans rfl)
    dsimp only at i2 i3 i6 i7 i9 i10 i11
    refine ⟨st1, ((orig.drop st.istart).take n).map (oos_value (find_beta ntrn d)) ++ OOS2,
      ⟨ifold, st.istart, st.istart + n, ntrn, d, find_beta ntrn d⟩ :: log2,
      i1, ?_, ?_, i4, i5, ?_, ?_, ?_, ?_, ?_, ?_⟩
    · rw [i2, List.append_assoc]
    · rw [i3, List.append_assoc, List.singleton_append]
    · rw [List.length_append, List.length_map, hslen, i6]
      omega
    · rw [List.map_cons, i7]
    · intro i r hr
      cases i with
      | zero =>
        simp only [List.getElem?_cons_zero, Option.some.injEq] at hr
        rw [← hr]
        rfl
      | succ i =>
        simp only [List.getElem?_cons_succ] at hr
        rw [i8 i r hr]
        omega
    · intro r hr
      rcases List.mem_cons.mp hr with rfl | hr
      · dsimp only
        have e : st.istart + n - st.istart = n := by omega
        rw [e]
        exact ⟨le_refl _, by omega, g1, rfl, g5, g6, g7, g8⟩
      · obtain ⟨b1, b2⟩ := i9 r hr
        exact ⟨by omega, b2⟩
    · intro j hj1 hj2
      by_cases hj : j < st.istart + n
      · have hjl : j < orig.length := by omega
        refine ⟨_, List.mem_cons_self _ _, orig[j], hj1, hj, List.getElem?_eq_getElem hjl, ?_⟩
        have e : st.istart + (j - st.istart) = j := by omega
        rw [List.getElem?_append_left (by rw [List.length_map, hslen]; omega),
          List.getElem?_map, slice_getElem? orig _ _ _ (by omega), e,
          List.getElem?_eq_getElem hjl]
        rfl
      · obtain ⟨r, hr, c, c1, c2, c3, c4⟩ := i10 j (by omega) hj2
        refine ⟨r, List.mem_cons_of_mem _ hr, c, c1, c2, c3, ?_⟩
        rw [List.getElem?_append_right (by rw [List.length_map, hslen]; omega),
          List.length_map, hslen]
        have e : j - st.istart - n = j - (st.istart + n) := by omega
        rw [e]
        exact c4
    · intro r hr i hi
      rcases List.mem_cons.mp hr with rfl | hr
      · dsimp only at hi ⊢
        have hjl : st.istart + i < orig.length := by omega
        refine ⟨orig[st.istart + i], List.getElem?_eq_getElem hjl, ?_⟩
        rw [Nat.sub_self, Nat.zero_add,
          List.getElem?_append_left (by rw [List.length_map, hslen]; omega),
          List.getElem?_map, slice_getElem? orig _ _ _ (by omega),
          List.getElem?_eq_getElem hjl]
        rfl
      · obtain ⟨c, c1, c2⟩ := i11 r hr i hi
        obtain ⟨b1, _⟩ := i9 r hr
        refine ⟨c, c1, ?_⟩
        rw [List.getElem?_append_right (by rw [List.length_map, hslen]; omega),
          List.length_map, hslen]
        have e : r.istart - st.istart + i - n = r.istart - (st.istart + n) + i := by omega
        rw [e]
        exact c2

end XvalLemmas

theorem enumFrom_filter_outside {β : Type} (l : List β) :
    ∀ (s a b : Nat), a ≤ b →
      ((l.enumFrom s).filter fun p => decide (p.1 < a ∨ b ≤ p.1)).map Prod.snd
        = l.take (a - s) ++ l.drop (b - s) := by
  induction l with
  | nil => intro s a b _; simp
  | cons x xs ih =>
    intro s a b hab
    rw [List.enumFrom_cons, List.filter_cons]
    by_cases h1 : s < a
    · have hb : b - s = (b - (s + 1)) + 1 := by omega
      have ha : a - s = (a - (s + 1)) + 1 := by omega
      have hd : decide (s < a ∨ b ≤ s) = true := by simp [h1]
      rw [hb, ha]
      simp only [hd, if_true, List.map_cons, List.take_succ_cons, List.drop_succ_cons,
        List.cons_append, ih (s + 1) a b hab]
    · by_cases h2 : b ≤ s
      · have hb : b - s = 0 := by omega
        have ha : a - s = 0 := by omega
        have hb1 : b - (s + 1) = 0 := by omega
        have ha1 : a - (s + 1) = 0 := by omega
        have hd : decide (s < a ∨ b ≤ s) = true := by simp [h2]
        simp only [hd, if_true, List.map_cons, ih (s + 1) a b hab, hb, ha, hb1, ha1,
          List.take_zero, List.drop_zero, List.nil_append]
      · have hb : b - s = (b - (s + 1)) + 1 := by omega
        have ha : a - s = 0 := by omega
        have ha1 : a - (s + 1) = 0 := by omega
        have hd : decide (s < a ∨ b ≤ s) = false := by simp [h1, h2]
        rw [hb]
        simp only [hd, Bool.false_eq_true, if_false, ih (s + 1) a b hab, ha, ha1,
          List.take_zero, List.drop_succ_cons, List.nil_append]

section XvalTheorems

variable {α : Type} [LinearOrderedField α]

/-- The whole cross validation loop, started as `main` starts it. -/
theorem xval_run (ncases nfolds nomit : Nat) (data : List (α × α))
    (hlen : data.length = ncases) (h1 : 1 ≤ nfolds)
    (hcopy : nomit ≠ 0 →
      (∀ f, (foldBounds ncases nfolds).head? = some f →
        0 ≤ (ncases : Int) - (f.2 : Int) - (nomit : Int)) ∧
      (2 ≤ nfolds → ∀ f, (foldBounds ncases nfolds).getLast? = some f →
        0 ≤ (f.1 : Int) - (nomit : Int))) :
    ∃ st : XvalState α,
      xval ncases nfolds nomit data = some st ∧
      st.data.length = ncases ∧ (nomit = 0 → st.data = data) ∧
      st.OOS.length = ncases ∧
      st.log.map (fun r => (r.istart, r.istop)) = foldBounds ncases nfolds ∧
      (∀ (i : Nat) (r : XvalFold α), st.log[i]? = some r → r.ifold = i) ∧
      (∀ r ∈ st.log, r.istart ≤ r.istop ∧ r.istop ≤ ncases ∧
        r.model = find_beta r.ntrn r.data ∧ r.data.length = ncases ∧
        r.data.drop (ncases - (r.istop - r.istart))
          = (data.drop r.istart).take (r.istop - r.istart) ∧
        (nomit = 0 → r.ntrn = ((ncases - (r.istop - r.istart) : Nat) : Int) ∧
          List.Perm (r.data.take (ncases - (r.istop - r.istart)))
            (data.take r.istart ++ data.drop r.istop)) ∧
        (nomit ≠ 0 →
          r.ntrn = (((r.istart - nomit) + (ncases - (r.istop + nomit)) : Nat) : Int) ∧
          r.data.take ((r.istart - nomit) + (ncases - (r.istop + nomit))) =
            data.take (r.istart - nomit) ++ data.drop (r.istop + nomit))) ∧
      (∀ j, j < ncases → ∃ r ∈ st.log, ∃ c : α × α,
        r.istart ≤ j ∧ j < r.istop ∧ data[j]? = some c ∧
        st.OOS[j]? = some (oos_value r.model c)) ∧
      (∀ r ∈ st.log, ∀ i, i < r.istop - r.istart → ∃ c : α × α,
        data[r.istart + i]? = some c ∧
        st.OOS[r.istart + i]? = some (oos_value r.model c)) := by
  obtain ⟨m, rfl⟩ : ∃ m, nfolds = m + 1 := ⟨nfolds - 1, by omega⟩
  have hhead : (foldBounds ncases (m + 1)).head?
      = some (0, 0 + (ncases - 0) / (m + 1 - 0)) := by
    rw [foldBounds, foldLoop]
    rfl
  obtain ⟨st1, OOS1, log1, a1, a2, a3, a4, a5, a6, a7, a8, a9, a10, a11⟩ :=
    xvalLoop_spec ncases (m + 1) nomit data hlen (m + 1) 0 ⟨data, 0, 0, [], []⟩
      (by omega) hlen (fun _ => rfl) rfl (Nat.zero_le _) (by intro h; omega)
      (by
        intro h0 _
        have := (hcopy h0).1 _ hhead
        dsimp only at this ⊢
        refine ⟨rfl, ?_⟩
        omega)
      (by
        intro h0 h2 f hf
        have := (hcopy h0).2 h2 f hf
        omega)
  dsimp only at a2 a3 a6 a7 a8 a9 a10 a11
  rw [List.nil_append] at a2 a3
  rw [← a2] at a6 a10 a11
  rw [← a3] at a7 a8 a9 a10 a11
  refine ⟨st1, a1, a4, a5, by simpa using a6, a7, ?_, ?_, ?_, ?_⟩
  · intro i r hr
    simpa using a8 i r hr
  · intro r hr
    exact (a9 r hr).2
  · intro j hj
    simpa using a10 j (Nat.zero_le _) hj
  · intro r hr i hi
    simpa using a11 r hr i hi

theorem oos_value_eq_ite (model : Option (α × α)) (c : α × α) :
    oos_value model c =
      if (match model with
          | some (beta, constant) => decide (beta * c.1 + constant > 0)
          | none => false) then c.2 else -c.2 := by
  unfold oos_value
  cases model with
  | none => simp
  | some m => simp

/-- C1. For `1 <= nfolds <= ncases` and `omit = 0`, or `omit > 0` with the copy
lengths of the first fold (`ncases-istop-omit`) and of the last fold
(`istart-omit`) non-negative, the cross validation loop succeeds,
`n_OOS_X = ncases`, and for every `k < ncases` record `k` is `+target_k` when
`beta*indicator_k + constant > 0` and `-target_k` otherwise, for case `k` of the
original dataset and the model `find_beta` returned in the pass of the fold
`[istart, istop)` that contains `k`. -/
theorem xval_scores_every_case (ncases nfolds nomit : Nat) (data : List (α × α))
    (hlen : data.length = ncases) (h1 : 1 ≤ nfolds) (h2 : nfolds ≤ ncases)
    (hcopy : nomit = 0 ∨
      ((∀ f, (foldBounds ncases nfolds).head? = some f →
          0 ≤ (ncases : Int) - (f.2 : Int) - (nomit : Int)) ∧
       (2 ≤ nfolds → ∀ f, (foldBounds ncases nfolds).getLast? = some f →
          0 ≤ (f.1 : Int) - (nomit : Int)))) :
    ∃ st : XvalState α,
      xval ncases nfolds nomit data = some st ∧
      st.OOS.length = ncases ∧
      ∀ k, k < ncases → ∃ r ∈ st.log, ∃ c : α × α,
        (r.istart, r.istop) ∈ foldBounds ncases nfolds ∧ r.istart ≤ k ∧ k < r.istop ∧
        r.model = find_beta r.ntrn r.data ∧
        data[k]? = some c ∧
        st.OOS[k]? = some (oos_value r.model c) ∧
        st.OOS[k]? = some
          (if (match r.model with
               | some (beta, constant) => decide (beta * c.1 + constant > 0)
               | none => false) then c.2 else -c.2) := by
  have _ := h2
  obtain ⟨st, a1, _, _, a4, a5, _, a7, a8, _⟩ := xval_run ncases nfolds nomit data hlen h1
    (by
      intro h0
      rcases hcopy with h | h
      · exact absurd h h0
      · exact h)
  refine ⟨st, a1, a4, fun k hk => ?_⟩
  obtain ⟨r, hr, c, c1, c2, c3, c4⟩ := a8 k hk
  refine ⟨r, hr, c, ?_, c1, c2, (a7 r hr).2.2.1, c3, c4, ?_⟩
  · rw [← a5]
    exact List.mem_map.mpr ⟨r, hr, rfl⟩
  · rw [c4, oos_value_eq_ite]

theorem xval_scores_every_case_witness :
    (([(1, 10), (2, -20), (-3, 30), (4, 40), (5, -50), (-6, 60), (7, 70)] :
        List (ℚ × ℚ)).length = 7 ∧ 1 ≤ 3 ∧ 3 ≤ 7) ∧
    ∃ st : XvalState ℚ,
      xval 7 3 0 [(1, 10), (2, -20), (-3, 30), (4, 40), (5, -50), (-6, 60), (7, 70)] = some st ∧
      st.OOS.length = 7 :=
  ⟨⟨rfl, by decide, by decide⟩,
   (xval_scores_every_case 7 3 0
      [(1, 10), (2, -20), (-3, 30), (4, 40), (5, -50), (-6, 60), (7, 70)]
      rfl (by decide) (by decide) (Or.inl rfl)).imp fun _ h => ⟨h.1, h.2.1⟩⟩

/-- C3. In buffered mode (`omit > 0`), when the copy lengths of the first and
of the last fold are non-negative, the loop succeeds and in the pass of every
fold `[istart, istop)` (first, interior or last) the front of the working buffer
handed to `find_beta` holds, in original order, exactly the snapshot cases whose
index `j` satisfies `j < istart - omit` or `j >= istop + omit`, and the count
handed over is their number. Every such index is more than `omit` away from
every index of the fold. -/
theorem xval_buffered_training (ncases nfolds nomit : Nat) (data : List (α × α))
    (hlen : data.length = ncases) (h1 : 1 ≤ nfolds) (h2 : nfolds ≤ ncases) (homit : 0 < nomit)
    (hfirst : ∀ f, (foldBounds ncases nfolds).head? = some f →
      0 ≤ (ncases : Int) - (f.2 : Int) - (nomit : Int))
    (hlast : 2 ≤ nfolds → ∀ f, (foldBounds ncases nfolds).getLast? = some f →
      0 ≤ (f.1 : Int) - (nomit : Int)) :
    ∃ st : XvalState α,
      xval ncases nfolds nomit data = some st ∧
      st.log.map (fun r => (r.istart, r.istop)) = foldBounds ncases nfolds ∧
      ∀ r ∈ st.log,
        r.model = find_beta r.ntrn r.data ∧
        r.ntrn = (((data.enum.filter fun p =>
          decide ((p.1 : Int) < (r.istart : Int) - (nomit : Int) ∨
            (r.istop : Int) + (nomit : Int) ≤ (p.1 : Int))).map Prod.snd).length : Int) ∧
        r.data.take r.ntrn.toNat = (data.enum.filter fun p =>
          decide ((p.1 : Int) < (r.istart : Int) - (nomit : Int) ∨
            (r.istop : Int) + (nomit : Int) ≤ (p.1 : Int))).map Prod.snd ∧
        r.data.take r.ntrn.toNat
          = data.take (r.istart - nomit) ++ data.drop (r.istop + nomit) ∧
        (∀ j h : Nat, ((j : Int) < (r.istart : Int) - (nomit : Int) ∨
            (r.istop : Int) + (nomit : Int) ≤ (j : Int)) →
          r.istart ≤ h → h < r.istop → (nomit : Int) < |(j : Int) - (h : Int)|) := by
  have _ := h2
  obtain ⟨st, a1, _, _, _, a5, _, a7, _, _⟩ := xval_run ncases nfolds nomit data hlen h1
    (fun _ => ⟨hfirst, hlast⟩)
  refine ⟨st, a1, a5, fun r hr => ?_⟩
  obtain ⟨b1, b2, b3, b4, b5, _, b7⟩ := a7 r hr
  obtain ⟨c1, c2⟩ := b7 (by omega)
  have hfil : ((data.enum.filter fun p =>
      decide ((p.1 : Int) < (r.istart : Int) - (nomit : Int) ∨
        (r.istop : Int) + (nomit : Int) ≤ (p.1 : Int))).map Prod.snd)
      = data.take (r.istart - nomit) ++ data.drop (r.istop + nomit) := by
    have hc : (data.enum.filter fun p =>
        decide ((p.1 : Int) < (r.istart : Int) - (nomit : Int) ∨
          (r.istop : Int) + (nomit : Int) ≤ (p.1 : Int)))
        = (data.enumFrom 0).filter fun p =>
            decide (p.1 < r.istart - nomit ∨ r.istop + nomit ≤ p.1) := by
      rw [List.enum]
      apply List.filter_congr
      intro p _
      apply decide_eq_decide.mpr
      omega
    rw [hc, enumFrom_filter_outside data 0 _ _ (by omega)]
    rfl
  have hlenT : (data.take (r.istart - nomit) ++ data.drop (r.istop + nomit)).length
      = (r.istart - nomit) + (ncases - (r.istop + nomit)) := by
    rw [List.length_append, List.length_take, List.length_drop]
    omega
  have hnat : r.ntrn.toNat = (r.istart - nomit) + (ncases - (r.istop + nomit)) := by
    rw [c1]; exact Int.toNat_ofNat _
  refine ⟨b3, ?_, ?_, ?_, ?_⟩
  · rw [hfil, hlenT, c1]
  · rw [hfil, hnat, c2]
  · rw [hnat, c2]
  · intro j h hj h3 h4
    rcases hj with hj | hj
    · rw [abs_of_neg (by omega)]
      omega
    · rw [abs_of_pos (by omega)]
      omega

theorem xval_buffered_training_witness :
    (([(1, 10), (2, -20), (-3, 30), (4, 40), (5, -50), (-6, 60), (7, 70)] :
        List (ℚ × ℚ)).length = 7 ∧ 1 ≤ 3 ∧ 3 ≤ 7 ∧ 0 < 1 ∧
      (∀ f, (foldBounds 7 3).head? = some f →
        0 ≤ ((7 : Nat) : Int) - (f.2 : Int) - ((1 : Nat) : Int)) ∧
      (2 ≤ 3 → ∀ f, (foldBounds 7 3).getLast? = some f →
        0 ≤ (f.1 : Int) - ((1 : Nat) : Int))) ∧
    ∃ st : XvalState ℚ,
      xval 7 3 1 [(1, 10), (2, -20), (-3, 30), (4, 40), (5, -50), (-6, 60), (7, 70)] = some st ∧
      st.log.map (fun r => (r.istart, r.istop)) = foldBounds 7 3 :=
  have hf : ∀ f, (foldBounds 7 3).head? = some f →
      0 ≤ ((7 : Nat) : Int) - (f.2 : Int) - ((1 : Nat) : Int) := by
    intro f hf
    have e : f = (0, 2) := (Option.some.inj hf).symm
    rw [e]
    decide
  have hl : 2 ≤ 3 → ∀ f, (foldBounds 7 3).getLast? = some f →
      0 ≤ (f.1 : Int) - ((1 : Nat) : Int) := by
    intro _ f hf
    have e : f = (4, 7) := (Option.some.inj hf).symm
    rw [e]
    decide
  ⟨⟨rfl, by decide, by decide, by decide, hf, hl⟩,
   (xval_buffered_training 7 3 1
      [(1, 10), (2, -20), (-3, 30), (4, 40), (5, -50), (-6, 60), (7, 70)]
      rfl (by decide) (by decide) (by decide) hf hl).imp fun _ h => ⟨h.1, h.2.1⟩⟩

/-- C4. In unbuffered mode (`omit == 0`) with `2 <= nfolds <= ncases`, in the
pass of every fold `[istart, istop)` of size `n` the working buffer at the call
of `find_beta` has as first `ncases - n` cases a permutation of the original
cases outside the fold and as last `n` cases the original cases
`istart..istop-1` in order; `find_beta` is called with the count `ncases - n`
(so it fits that prefix) and the tail block is what is scored. -/
theorem xval_unbuffered_training (ncases nfolds : Nat) (data : List (α × α))
    (hlen : data.length = ncases) (h1 : 2 ≤ nfolds) (h2 : nfolds ≤ ncases) :
    ∃ st : XvalState α,
      xval ncases nfolds 0 data = some st ∧
      st.log.map (fun r => (r.istart, r.istop)) = foldBounds ncases nfolds ∧
      ∀ r ∈ st.log,
        r.istart ≤ r.istop ∧ r.istop ≤ ncases ∧ r.data.length = ncases ∧
        List.Perm (r.data.take (ncases - (r.istop - r.istart)))
          (data.take r.istart ++ data.drop r.istop) ∧
        r.data.drop (ncases - (r.istop - r.istart))
          = (data.drop r.istart).take (r.istop - r.istart) ∧
        r.ntrn = ((ncases - (r.istop - r.istart) : Nat) : Int) ∧
        r.model = find_beta r.ntrn r.data ∧
        r.model = find_beta ((ncases - (r.istop - r.istart) : Nat) : Int)
          (r.data.take (ncases - (r.istop - r.istart))) ∧
        (∀ i, i < r.istop - r.istart → ∃ c : α × α,
          r.data[ncases - (r.istop - r.istart) + i]? = some c ∧
          data[r.istart + i]? = some c ∧
          st.OOS[r.istart + i]? = some (oos_value r.model c)) := by
  have _ := h2
  obtain ⟨st, a1, _, _, _, a5, _, a7, _, a9⟩ := xval_run ncases nfolds 0 data hlen (by omega)
    (fun h => absurd rfl h)
  refine ⟨st, a1, a5, fun r hr => ?_⟩
  obtain ⟨b1, b2, b3, b4, b5, b6, _⟩ := a7 r hr
  obtain ⟨c1, c2⟩ := b6 rfl
  refine ⟨b1, b2, b4, c2, b5, c1, b3, ?_, ?_⟩
  · rw [b3, c1, find_beta_take, Int.toNat_ofNat]
  · intro i hi
    obtain ⟨c, d1, d2⟩ := a9 r hr i hi
    refine ⟨c, ?_, d1, d2⟩
    rw [← List.getElem?_drop, b5, slice_getElem? data _ _ _ hi]
    exact d1

theorem xval_unbuffered_training_witness :
    (([(1, 10), (2, -20), (-3, 30), (4, 40), (5, -50), (-6, 60), (7, 70)] :
        List (ℚ × ℚ)).length = 7 ∧ 2 ≤ 3 ∧ 3 ≤ 7) ∧
    ∃ st : XvalState ℚ,
      xval 7 3 0 [(1, 10), (2, -20), (-3, 30), (4, 40), (5, -50), (-6, 60), (7, 70)] = some st ∧
      st.log.map (fun r => (r.istart, r.istop)) = foldBounds 7 3 :=
  ⟨⟨rfl, by decide, by decide⟩,
   (xval_unbuffered_training 7 3
      [(1, 10), (2, -20), (-3, 30), (4, 40), (5, -50), (-6, 60), (7, 70)]
      rfl (by decide) (by decide)).imp fun _ h => ⟨h.1, h.2.1⟩⟩

end XvalTheorems

/-! ## Lemmas on the generator -/

theorem seedLoop_length (n k j : Nat) (Q : List Nat) :
    (seedLoop n k j Q).length = Q.length := by
  induction n generalizing k j Q with
  | zero => rfl
  | succ n ih => simp [seedLoop, ih]

theorem seedLoop_getElem? (n : Nat) : ∀ (k j : Nat) (Q : List Nat) (m : Nat),
    k + n ≤ Q.length →
    (seedLoop n k j Q)[m]? =
      if k ≤ m ∧ m < k + n then some (lcgStep^[m - k + 1] j) else Q[m]? := by
  induction n with
  | zero =>
    intro k j Q m _
    have : ¬ (k ≤ m ∧ m < k + 0) := by omega
    show Q[m]? = _
    rw [if_neg this]
  | succ n ih =>
    intro k j Q m hk
    have hlen : k + 1 + n ≤ (Q.set k (lcgStep j)).length := by
      rw [List.length_set]; omega
    rw [seedLoop, ih (k + 1) (lcgStep j) _ m hlen]
    by_cases h1 : k + 1 ≤ m ∧ m < k + 1 + n
    · have h2 : k ≤ m ∧ m < k + (n + 1) := by omega
      have h3 : m - k + 1 = (m - (k + 1) + 1) + 1 := by omega
      rw [if_pos h1, if_pos h2, h3]
      rfl
    · rw [if_neg h1]
      by_cases h4 : k = m
      · subst h4
        have h2 : k ≤ k ∧ k < k + (n + 1) := by omega
        have h5 : k < Q.length := by omega
        rw [if_pos h2, List.getElem?_set]
        simp [h5]
      · have h2 : ¬ (k ≤ m ∧ m < k + (n + 1)) := by omega
        rw [if_neg h2, List.getElem?_set, if_neg h4]

theorem lcgStep_lt (j : Nat) : lcgStep j < 2 ^ 32 :=
  Nat.mod_lt _ (by norm_num)

theorem lcgStep_seed (s : Int) :
    ((lcgStep (s % 2 ^ 32).toNat : Nat) : Int) = (69069 * s + 12345) % 2 ^ 32 := by
  have h1 : (((s % 4294967296).toNat : Nat) : Int) = s % 4294967296 :=
    Int.toNat_of_nonneg (Int.emod_nonneg _ (by norm_num))
  unfold lcgStep
  push_cast
  rw [h1, Int.add_emod, Int.mul_emod, Int.emod_emod, ← Int.mul_emod, ← Int.add_emod]

theorem seedTable_getElem? (seed : Int) (Q : List Nat) (hQ : Q.length = 256) (m : Nat)
    (hm : m < 256) :
    (seedTable seed Q)[m]? = some (lcgStep^[m + 1] (seed % 2 ^ 32).toNat) := by
  unfold seedTable
  rw [seedLoop_getElem? 256 0 _ Q m (by omega)]
  have : 0 ≤ m ∧ m < 0 + 256 := by omega
  rw [if_pos this]; rfl

/-- C10. One draw of `RAND32M` on an initialised generator `g` (256 words below
`2^32`, carry below `2^32`, any index): with `s = (i+1) mod 256` and
`t = 809430660 * Q[s] + carry`, `t` fits 64 bits, the new carry is `t / 2^32`,
the output and the new `Q[s]` are `t mod 2^32`, so that
`carry * 2^32 + output = t`; the other slots are unchanged and the index
becomes `s`. The first draw after start-up uses slot 0. On a generator `u` that
is not initialised the draw first fills the table with
`Q[0] = (69069*seed + 12345) mod 2^32`, `Q[k+1] = (69069*Q[k] + 12345) mod 2^32`
(256 words below `2^32`) and then proceeds as on an initialised one. -/
theorem RAND32M_draw (g : MWC256) (s t : Nat)
    (hinit : g.MWC256_initialized = true) (hlen : g.Q.length = 256)
    (hQ : ∀ q ∈ g.Q, q < 2 ^ 32) (hc : g.carry < 2 ^ 32)
    (hs : s = (g.i + 1) % 256) (ht : t = 809430660 * g.Q.getD s 0 + g.carry)
    (u : MWC256) (hu : u.MWC256_initialized = false) (hul : u.Q.length = 256) :
    t < 2 ^ 64 ∧
    (RAND32M g).2.carry = t / 2 ^ 32 ∧
    (RAND32M g).1 = t % 2 ^ 32 ∧
    (RAND32M g).2.Q[s]? = some (t % 2 ^ 32) ∧
    (RAND32M g).2.carry * 2 ^ 32 + (RAND32M g).1 = 809430660 * g.Q.getD s 0 + g.carry ∧
    (∀ k, k ≠ s → (RAND32M g).2.Q[k]? = g.Q[k]?) ∧
    (RAND32M g).2.Q.length = 256 ∧
    (RAND32M g).2.i = s ∧
    (RAND32M g).2.MWC256_initialized = true ∧
    (∀ seed, (RAND32M (RAND32M_seed MWC256.startup seed)).2.i = 0) ∧
    RAND32M u = RAND32M { u with Q := seedTable u.MWC256_seed u.Q,
                                 MWC256_initialized := true } ∧
    (seedTable u.MWC256_seed u.Q).length = 256 ∧
    (∀ q ∈ seedTable u.MWC256_seed u.Q, q < 2 ^ 32) ∧
    (∃ q0 : Nat, (seedTable u.MWC256_seed u.Q)[0]? = some q0 ∧
      (q0 : Int) = (69069 * u.MWC256_seed + 12345) % 2 ^ 32) ∧
    (∀ k, k + 1 < 256 → ∃ q : Nat, (seedTable u.MWC256_seed u.Q)[k]? = some q ∧
      (seedTable u.MWC256_seed u.Q)[k + 1]? = some ((69069 * q + 12345) % 2 ^ 32)) := by
  have hs256 : s < 256 := by rw [hs]; exact Nat.mod_lt _ (by norm_num)
  have hq : g.Q.getD s 0 < 2 ^ 32 := by
    rw [List.getD_eq_getElem _ _ (by omega)]
    exact hQ _ (List.getElem_mem _)
  have key : ∀ q c : Nat, q < 2 ^ 32 → c < 2 ^ 32 → 809430660 * q + c < 2 ^ 64 := by
    intro q c h1 h2
    norm_num at h1 h2 ⊢
    omega
  have ht64 : t < 2 ^ 64 := by
    rw [ht]; exact key _ _ hq hc
  have hcarry : t / 2 ^ 32 < 2 ^ 32 := by
    have h1 : t < 18446744073709551616 := by simpa using ht64
    norm_num
    omega
  have hR : RAND32M g =
      (t % 2 ^ 32, ⟨g.Q.set s (t % 2 ^ 32), t / 2 ^ 32, true, g.MWC256_seed, s⟩) := by
    simp only [RAND32M, hinit, if_true, ← hs, ← ht, Nat.mod_eq_of_lt ht64,
      Nat.mod_eq_of_lt hcarry]
  refine ⟨ht64, ?_, ?_, ?_, ?_, ?_, ?_, ?_, ?_, ?_, ?_, ?_, ?_, ?_, ?_⟩
  · rw [hR]
  · rw [hR]
  · rw [hR]; simp [List.getElem?_set, hlen, hs256]
  · rw [hR, ← ht]; exact Nat.div_add_mod' t (2 ^ 32)
  · intro k hk
    rw [hR]; simp only [List.getElem?_set]
    rw [if_neg (fun h => hk h.symm)]
  · rw [hR]; simp [hlen]
  · rw [hR]
  · rw [hR]
  · intro seed; simp only [RAND32M, RAND32M_seed, MWC256.startup]
  · simp [RAND32M, hu]
  · unfold seedTable; rw [seedLoop_length, hul]
  · intro q hq
    obtain ⟨m, hm, rfl⟩ := List.getElem_of_mem hq
    have hm256 : m < 256 := by
      have : (seedTable u.MWC256_seed u.Q).length = 256 := by
        unfold seedTable; rw [seedLoop_length, hul]
      omega
    have h := seedTable_getElem? u.MWC256_seed u.Q hul m hm256
    rw [List.getElem?_eq_getElem hm] at h
    have h2 := Option.some.inj h
    rw [h2, Function.iterate_succ_apply']
    exact lcgStep_lt _
  · refine ⟨_, seedTable_getElem? u.MWC256_seed u.Q hul 0 (by norm_num), ?_⟩
    exact lcgStep_seed _
  · intro k hk
    refine ⟨_, seedTable_getElem? u.MWC256_seed u.Q hul k (by omega), ?_⟩
    rw [seedTable_getElem? u.MWC256_seed u.Q hul (k + 1) hk, Function.iterate_succ_apply']
    rfl

theorem RAND32M_draw_witness :
    (809430660 * (List.replicate 256 7).getD 0 0 + 362436 < 2 ^ 64) ∧
    (RAND32M ⟨List.replicate 256 7, 362436, true, 411, 255⟩).1
      = (809430660 * (List.replicate 256 7).getD 0 0 + 362436) % 2 ^ 32 :=
  have h := RAND32M_draw ⟨List.replicate 256 7, 362436, true, 411, 255⟩ 0
    (809430660 * (List.replicate 256 7).getD 0 0 + 362436) rfl (List.length_replicate _ _)
    (by intro q hq; rw [List.eq_of_mem_replicate hq]; norm_num) (by norm_num) rfl rfl
    MWC256.startup rfl (List.length_replicate _ _)
  ⟨h.1, h.2.2.1⟩

/-! ## Uniform draws and re-seeding -/

theorem RAND32M_fst_lt (g : MWC256) : (RAND32M g).1 < 4294967296 := by
  have h : (RAND32M g).1 < 2 ^ 32 := Nat.mod_lt _ (by norm_num)
  simpa using h

set_option maxRecDepth 100000 in
theorem first_draw_411 : (RAND32M (RAND32M_seed MWC256.startup 411)).1 = 2766726436 := by
  decide

set_option maxRecDepth 100000 in
theorem top_draw :
    (RAND32M ⟨List.replicate 256 335484831, 3, true, 411, 255⟩).1 = 4294967295 := by
  decide

section UniformTheorems

variable {α : Type} [LinearOrderedField α]

/-- C11 fails as stated: the first draw after seeding with 411 is `2766726436`
and `unifrand` returns `2766726436/4294967295`, not `2766726436/2^32`; and on a
generator whose draw is `2^32 - 1` it returns exactly 1. -/
theorem unifrand_counterexample :
    (unifrand (RAND32M_seed MWC256.startup 411)).1 = (2766726436 / 4294967295 : ℚ) ∧
    (unifrand (RAND32M_seed MWC256.startup 411)).1 ≠
      ((RAND32M (RAND32M_seed MWC256.startup 411)).1 : ℚ) / 2 ^ 32 ∧
    (unifrand ⟨List.replicate 256 335484831, 3, true, 411, 255⟩).1 = (1 : ℚ) := by
  unfold unifrand
  rw [first_draw_411, top_draw]
  norm_num

/-- C11, amended. `unifrand` returns the value `r` of `RAND32M` scaled by
`1/(2^32 - 1)`, hence a number in the closed interval `[0, 1]`, which is 1
exactly when `r = 2^32 - 1`; the generator state moves as under `RAND32M`. -/
theorem unifrand_range (g : MWC256) :
    (unifrand g).1 = (((RAND32M g).1 : Nat) : α) / (2 ^ 32 - 1) ∧
    (0 : α) ≤ (unifrand g).1 ∧ (unifrand g).1 ≤ (1 : α) ∧
    ((unifrand g).1 = (1 : α) ↔ (RAND32M g).1 = 2 ^ 32 - 1) ∧
    (unifrand (α := α) g).2 = (RAND32M g).2 := by
  have hr := RAND32M_fst_lt g
  have hr1 : (((RAND32M g).1 : Nat) : α) ≤ 4294967295 := by
    exact_mod_cast Nat.lt_succ_iff.mp hr
  have h0 : (0 : α) ≤ (((RAND32M g).1 : Nat) : α) := Nat.cast_nonneg _
  have hval : (unifrand g).1 = (((RAND32M g).1 : Nat) : α) / (2 ^ 32 - 1) := by
    unfold unifrand
    norm_num
    ring
  have hden : (2 : α) ^ 32 - 1 = 4294967295 := by norm_num
  refine ⟨hval, ?_, ?_, ?_, rfl⟩
  · rw [hval, hden]
    exact div_nonneg h0 (by norm_num)
  · rw [hval, hden, div_le_one (by norm_num)]
    exact hr1
  · rw [hval, hden, div_eq_one_iff_eq (by norm_num)]
    constructor
    · intro h
      have : (RAND32M g).1 = 4294967295 := by exact_mod_cast h
      rw [this]
      norm_num
    · intro h
      rw [h]
      norm_num

end UniformTheorems

theorem seedTable_congr (seed : Int) (Q1 Q2 : List Nat) (h1 : Q1.length = 256)
    (h2 : Q2.length = 256) : seedTable seed Q1 = seedTable seed Q2 := by
  apply List.ext_getElem?
  intro m
  by_cases hm : m < 256
  · rw [seedTable_getElem? seed Q1 h1 m hm, seedTable_getElem? seed Q2 h2 m hm]
  · have l1 : (seedTable seed Q1).length = 256 := by
      unfold seedTable; rw [seedLoop_length, h1]
    have l2 : (seedTable seed Q2).length = 256 := by
      unfold seedTable; rw [seedLoop_length, h2]
    rw [List.getElem?_eq_none (by omega), List.getElem?_eq_none (by omega)]

theorem RAND32M_after_seed (seed : Int) (g1 g2 : MWC256) (h1 : g1.Q.length = 256)
    (h2 : g2.Q.length = 256) (hc : g1.carry = g2.carry) (hi : g1.i = g2.i) :
    RAND32M (RAND32M_seed g1 seed) = RAND32M (RAND32M_seed g2 seed) := by
  simp only [RAND32M, RAND32M_seed, Bool.false_eq_true, if_false, hc, hi,
    seedTable_congr seed g1.Q g2.Q h1 h2]

set_option maxRecDepth 100000 in
/-- C12 fails as stated: seeded with 411 a freshly started generator returns
`2766726436, 2117938267, 4181449472`; the same generator, seeded again with 411
after its first draw, returns `2117938267, 4181449472, 2858824143`, because its
`carry` and index `i` are no longer those of a fresh start. -/
theorem RAND32M_reseed_counterexample :
    draws 3 (RAND32M_seed MWC256.startup 411) = [2766726436, 2117938267, 4181449472] ∧
    draws 3 (RAND32M_seed (RAND32M (RAND32M_seed MWC256.startup 411)).2 411)
      = [2117938267, 4181449472, 2858824143] ∧
    (RAND32M (RAND32M_seed MWC256.startup 411)).2.carry ≠ MWC256.startup.carry ∧
    (RAND32M (RAND32M_seed MWC256.startup 411)).2.i ≠ MWC256.startup.i := by
  decide

/-- C12, amended. For every seed `S` and every `k`, the first `k` values
returned by `RAND32M` after `RAND32M_seed(S)` are the same for any two
generators that have the same `carry` and the same index `i` when they are
seeded, whatever their tables hold; two freshly started generators are such a
pair. `RAND32M_seed` stores the seed and clears the flag, and leaves `Q`,
`carry` and `i` alone. -/
theorem draws_after_seed (seed : Int) (k : Nat) (g1 g2 : MWC256) (h1 : g1.Q.length = 256)
    (h2 : g2.Q.length = 256) (hc : g1.carry = g2.carry) (hi : g1.i = g2.i) :
    draws k (RAND32M_seed g1 seed) = draws k (RAND32M_seed g2 seed) ∧
    (RAND32M_seed g1 seed).Q = g1.Q ∧ (RAND32M_seed g1 seed).carry = g1.carry ∧
    (RAND32M_seed g1 seed).i = g1.i ∧ (RAND32M_seed g1 seed).MWC256_seed = seed ∧
    (RAND32M_seed g1 seed).MWC256_initialized = false := by
  refine ⟨?_, rfl, rfl, rfl, rfl, rfl⟩
  cases k with
  | zero => rfl
  | succ k =>
    rw [draws, draws, RAND32M_after_seed seed g1 g2 h1 h2 hc hi]

theorem draws_after_seed_witness :
    ((MWC256.startup).Q.length = 256 ∧
      (⟨List.replicate 256 7, 362436, true, 5, 255⟩ : MWC256).Q.length = 256 ∧
      (MWC256.startup).carry = (⟨List.replicate 256 7, 362436, true, 5, 255⟩ : MWC256).carry ∧
      (MWC256.startup).i = (⟨List.replicate 256 7, 362436, true, 5, 255⟩ : MWC256).i) ∧
    draws 10 (RAND32M_seed MWC256.startup 411)
      = draws 10 (RAND32M_seed ⟨List.replicate 256 7, 362436, true, 5, 255⟩ 411) :=
  ⟨⟨List.length_replicate _ _, List.length_replicate _ _, rfl, rfl⟩,
   (draws_after_seed 411 10 MWC256.startup ⟨List.replicate 256 7, 362436, true, 5, 255⟩
      (List.length_replicate _ _) (List.length_replicate _ _) rfl rfl).1⟩

/-! ## The normal CDF -/

section NormalLemmas

variable {α : Type} [LinearOrderedField α]

theorem normal_cdf_zero (exp sqrt : α → α) (h : exp 0 = 1) :
    normal_cdf exp sqrt 0 = 1.253314136 / sqrt (2.0 * 3.141592653589793) := by
  unfold normal_cdf
  norm_num [h]
  ring

theorem normal_cdf_mirror (exp sqrt : α → α) (z : α) (hz : z ≠ 0) :
    normal_cdf exp sqrt z + normal_cdf exp sqrt (-z) = 1 := by
  unfold normal_cdf
  rcases lt_or_gt_of_ne hz with h | h
  · have h1 : ¬ (z > 0.0) := by norm_num; exact h.le
    have h2 : -z > 0.0 := by norm_num; exact h
    simp only [abs_neg, if_neg h1, if_pos h2]
    ring
  · have h1 : z > 0.0 := by norm_num; exact h
    have h2 : ¬ (-z > 0.0) := by norm_num; exact h.le
    simp only [abs_neg, if_pos h1, if_neg h2]
    ring

end NormalLemmas

theorem sqrt_two_pi_bounds :
    (2.5066282746 : ℝ) ≤ Real.sqrt (2.0 * 3.141592653589793) ∧
    Real.sqrt (2.0 * 3.141592653589793) ≤ (2.5066282747 : ℝ) := by
  constructor
  · rw [Real.le_sqrt' (by norm_num)]
    norm_num
  · rw [Real.sqrt_le_iff]
    constructor <;> norm_num

theorem normal_cdf_zero_bounds :
    (0.4999999994 : ℝ) ≤ normal_cdf Real.exp Real.sqrt 0 ∧
    normal_cdf Real.exp Real.sqrt 0 ≤ (0.4999999995 : ℝ) := by
  obtain ⟨hlo, hhi⟩ := sqrt_two_pi_bounds
  have hpos : (0 : ℝ) < Real.sqrt (2.0 * 3.141592653589793) := by linarith
  rw [normal_cdf_zero Real.exp Real.sqrt Real.exp_zero]
  constructor
  · rw [le_div_iff₀ hpos]
    nlinarith
  · rw [div_le_iff₀ hpos]
    nlinarith

/-- C13 fails as stated: with the constants of the code, in exact real
arithmetic, `normal_cdf(0)` is below `0.4999999995`. -/
theorem normal_cdf_zero_counterexample :
    normal_cdf Real.exp Real.sqrt (0 : ℝ) ≠ 0.5 := by
  have h := normal_cdf_zero_bounds.2
  intro h2
  rw [h2] at h
  norm_num at h

/-- C13, amended. In exact real arithmetic `normal_cdf(0)` is
`1.253314136 / sqrt(2 * 3.141592653589793)`, the sum of the five polynomial
coefficients over the square root; it lies between `0.4999999994` and
`0.4999999995`, so within `1e-9` of `0.5`. -/
theorem normal_cdf_zero_value :
    normal_cdf Real.exp Real.sqrt (0 : ℝ)
      = 1.253314136 / Real.sqrt (2.0 * 3.141592653589793) ∧
    (0.4999999994 : ℝ) ≤ normal_cdf Real.exp Real.sqrt 0 ∧
    normal_cdf Real.exp Real.sqrt 0 ≤ (0.4999999995 : ℝ) ∧
    |normal_cdf Real.exp Real.sqrt (0 : ℝ) - 0.5| ≤ 1e-9 := by
  obtain ⟨hlo, hhi⟩ := normal_cdf_zero_bounds
  refine ⟨normal_cdf_zero Real.exp Real.sqrt Real.exp_zero, hlo, hhi, ?_⟩
  rw [abs_le]
  constructor <;> norm_num <;> linarith

/-- C14. In exact real arithmetic, for every real `z`,
`|normal_cdf(z) + normal_cdf(-z) - 1| <= 1e-7`, and for `z != 0` the sum is
exactly 1. -/
theorem normal_cdf_mirrored (z : ℝ) :
    |normal_cdf Real.exp Real.sqrt z + normal_cdf Real.exp Real.sqrt (-z) - 1| ≤ 1e-7 ∧
    (z ≠ 0 → normal_cdf Real.exp Real.sqrt z + normal_cdf Real.exp Real.sqrt (-z) = 1) := by
  refine ⟨?_, normal_cdf_mirror Real.exp Real.sqrt z⟩
  by_cases hz : z = 0
  · subst hz
    obtain ⟨hlo, hhi⟩ := normal_cdf_zero_bounds
    rw [neg_zero, abs_le]
    constructor <;> norm_num <;> linarith
  · rw [normal_cdf_mirror Real.exp Real.sqrt z hz]
    norm_num

theorem normal_cdf_mirrored_witness :
    (1 : ℝ) ≠ 0 ∧
    normal_cdf Real.exp Real.sqrt 1 + normal_cdf Real.exp Real.sqrt (-1) = 1 :=
  ⟨one_ne_zero, (normal_cdf_mirrored 1).2 one_ne_zero⟩

/-! ## The parameter checks -/

/-- C15, the code at the failing input. The checks let a tuple pass exactly when
the seven tests of line 263-264 pass; the test
`nprices < lookback + lookahead + ntrain + ntest + 10` only chooses whether one
more line is printed when one of the seven has failed. With `nprices=20`,
`lookback=5`, `lookahead=5`, `ntrain=10`, `ntest=5`, `nfolds=2`, `omit=0` the
program goes on although `20 < 35`. -/
theorem check_params_nprices_rule :
    (∀ nprices lookback lookahead ntrain ntest nfolds nomit : Int,
      check_params nprices lookback lookahead ntrain ntest nfolds nomit = Startup.proceed ↔
        (2 ≤ nprices ∧ 2 ≤ lookback ∧ 1 ≤ lookahead ∧ 2 ≤ ntrain ∧ 1 ≤ ntest ∧
          2 ≤ nfolds ∧ 0 ≤ nomit)) ∧
    check_params 20 5 5 10 5 2 0 = Startup.proceed ∧
    (20 : Int) < 5 + 5 + 10 + 5 + 10 := by
  refine ⟨?_, by decide, by decide⟩
  intro nprices lookback lookahead ntrain ntest nfolds nomit
  unfold check_params
  constructor
  · intro h
    by_cases hc : nprices < 2 ∨ lookback < 2 ∨ lookahead < 1 ∨
        ntrain < 2 ∨ ntest < 1 ∨ nfolds < 2 ∨ nomit < 0
    · rw [if_pos hc] at h
      cases h
    · omega
  · intro h
    have hc : ¬ (nprices < 2 ∨ lookback < 2 ∨ lookahead < 1 ∨
        ntrain < 2 ∨ ntest < 1 ∨ nfolds < 2 ∨ nomit < 0) := by omega
    rw [if_neg hc]

/-! ## The final statistic -/

section FinalTheorems

variable {α : Type} [LinearOrderedField α]

theorem foldl_cumulate (reps : List (α × α)) :
    ∀ a : Totals α, reps.foldl cumulate a =
      { mean_W := a.mean_W + (reps.map Prod.fst).sum,
        mean_X := a.mean_X + (reps.map Prod.snd).sum,
        ss_W := a.ss_W + (reps.map fun r => r.1 * r.1).sum,
        ss_X := a.ss_X + (reps.map fun r => r.2 * r.2).sum } := by
  induction reps with
  | nil => intro a; simp
  | cons r rs ih =>
    intro a
    rw [List.foldl_cons, ih]
    simp only [cumulate, List.map_cons, List.sum_cons, add_assoc]

theorem sum_sq_dev {β : Type} (f : β → α) (l : List β) (m : α) :
    (l.map fun r => (f r - m) ^ 2).sum =
      (l.map fun r => f r * f r).sum - 2 * m * (l.map f).sum + (l.length : α) * m * m := by
  induction l with
  | nil => simp
  | cons r rs ih =>
    simp only [List.map_cons, List.sum_cons, List.length_cons, ih]
    push_cast
    ring

/-- C16. For `nreps >= 2` replications with per-replication means `(W_r, X_r)`,
in exact arithmetic: the grand means are the averages; the quantity under the
square root, `(ss_W + ss_X - nreps*(mean_W^2 + mean_X^2)) / (nreps*(nreps-1))`,
equals `(sum (W_r - mean_W)^2 + sum (X_r - mean_X)^2) / (nreps*(nreps-1))`,
which is `s_W^2/nreps + s_X^2/nreps` for the unbiased sample variances, and is
non-negative; `t = (mean_X - mean_W) / sqrt` of it, and the right tail is
`1 - normal_cdf(t)`. -/
theorem final_stats_two_sample (exp sqrt : α → α) (reps : List (α × α)) (nreps : Nat)
    (mW mX : α) (hlen : reps.length = nreps) (h2 : 2 ≤ nreps)
    (hW : mW = (reps.map Prod.fst).sum / (nreps : α))
    (hX : mX = (reps.map Prod.snd).sum / (nreps : α)) :
    (final_stats exp sqrt nreps (cumulate_all reps)).mean_W = mW ∧
    (final_stats exp sqrt nreps (cumulate_all reps)).mean_X = mX ∧
    (final_stats exp sqrt nreps (cumulate_all reps)).radicand =
      ((cumulate_all reps).ss_W + (cumulate_all reps).ss_X
        - (nreps : α) * (mW ^ 2 + mX ^ 2)) / ((nreps : α) * ((nreps : α) - 1)) ∧
    (final_stats exp sqrt nreps (cumulate_all reps)).radicand =
      ((reps.map fun r => (r.1 - mW) ^ 2).sum + (reps.map fun r => (r.2 - mX) ^ 2).sum)
        / ((nreps : α) * ((nreps : α) - 1)) ∧
    (final_stats exp sqrt nreps (cumulate_all reps)).radicand =
      ((reps.map fun r => (r.1 - mW) ^ 2).sum / ((nreps : α) - 1)) / (nreps : α) +
      ((reps.map fun r => (r.2 - mX) ^ 2).sum / ((nreps : α) - 1)) / (nreps : α) ∧
    0 ≤ (final_stats exp sqrt nreps (cumulate_all reps)).radicand ∧
    (final_stats exp sqrt nreps (cumulate_all reps)).t =
      (mX - mW) / sqrt (final_stats exp sqrt nreps (cumulate_all reps)).radicand ∧
    (final_stats exp sqrt nreps (cumulate_all reps)).rtail =
      1 - normal_cdf exp sqrt (final_stats exp sqrt nreps (cumulate_all reps)).t := by
  have hn2 : (2 : α) ≤ (nreps : α) := by exact_mod_cast h2
  have hn0 : (nreps : α) ≠ 0 := by
    have : (0 : α) < (nreps : α) := by linarith
    exact ne_of_gt this
  have hn1 : (nreps : α) - 1 ≠ 0 := by
    have : (0 : α) < (nreps : α) - 1 := by linarith
    exact ne_of_gt this
  have hcum : cumulate_all reps =
      { mean_W := (reps.map Prod.fst).sum, mean_X := (reps.map Prod.snd).sum,
        ss_W := (reps.map fun r => r.1 * r.1).sum,
        ss_X := (reps.map fun r => r.2 * r.2).sum } := by
    unfold cumulate_all
    rw [foldl_cumulate]
    simp only [zero_add]
  have hsW : (reps.map Prod.fst).sum = (nreps : α) * mW := by
    rw [hW]; field_simp
  have hsX : (reps.map Prod.snd).sum = (nreps : α) * mX := by
    rw [hX]; field_simp
  have hdW := sum_sq_dev Prod.fst reps mW
  have hdX := sum_sq_dev Prod.snd reps mX
  rw [hlen, hsW] at hdW
  rw [hlen, hsX] at hdX
  have hrad : (final_stats exp sqrt nreps (cumulate_all reps)).radicand =
      ((reps.map fun r => (r.1 - mW) ^ 2).sum + (reps.map fun r => (r.2 - mX) ^ 2).sum)
        / ((nreps : α) * ((nreps : α) - 1)) := by
    rw [hcum, hdW, hdX]
    simp only [final_stats]
    rw [← hW, ← hX]
    norm_num
    congr 1
    ring
  have hnonneg : 0 ≤ ((reps.map fun r => (r.1 - mW) ^ 2).sum +
      (reps.map fun r => (r.2 - mX) ^ 2).sum) / ((nreps : α) * ((nreps : α) - 1)) := by
    apply div_nonneg
    · apply add_nonneg <;>
        exact List.sum_nonneg fun x hx => by
          obtain ⟨r, _, rfl⟩ := List.mem_map.mp hx
          exact sq_nonneg _
    · apply mul_nonneg <;> linarith
  refine ⟨?_, ?_, ?_, hrad, ?_, ?_, ?_, ?_⟩
  · rw [hcum, hW]; rfl
  · rw [hcum, hX]; rfl
  · rw [hcum]
    simp only [final_stats]
    rw [← hW, ← hX]
    norm_num
    congr 1
    ring
  · rw [hrad]
    field_simp
    left
    ring
  · rw [hrad]; exact hnonneg
  · rw [hcum, hW, hX]; rfl
  · simp only [final_stats]
    norm_num

theorem final_stats_two_sample_witness :
    (([(1, 2), (2, 5), (4, 3)] : List (ℝ × ℝ)).length = 3 ∧ 2 ≤ 3) ∧
    (final_stats Real.exp Real.sqrt 3 (cumulate_all [(1, 2), (2, 5), (4, 3)])).radicand =
      (([(1, 2), (2, 5), (4, 3)] : List (ℝ × ℝ)).map fun r => (r.1 - 7 / 3) ^ 2).sum
        / (((3 : Nat) : ℝ) - 1) / ((3 : Nat) : ℝ) +
      (([(1, 2), (2, 5), (4, 3)] : List (ℝ × ℝ)).map fun r => (r.2 - 10 / 3) ^ 2).sum
        / (((3 : Nat) : ℝ) - 1) / ((3 : Nat) : ℝ) :=
  ⟨⟨rfl, by decide⟩,
   (final_stats_two_sample Real.exp Real.sqrt [(1, 2), (2, 5), (4, 3)] 3
      (7 / 3) (10 / 3) rfl (by decide) (by norm_num) (by norm_num)).2.2.2.2.1⟩

end FinalTheorems

/-! ## Restoration, bounds and training counts of the evaluators -/

theorem foldBounds_spec (ncases nfolds : Nat) (h1 : 1 ≤ nfolds) :
    (foldBounds ncases nfolds).length = nfolds ∧
    (∀ f ∈ foldBounds ncases nfolds, f.2 ≤ ncases ∧
      (f.2 = f.1 + ncases / nfolds ∨ f.2 = f.1 + ncases / nfolds + 1)) ∧
    (∀ f, (foldBounds ncases nfolds).head? = some f → f.1 = 0) ∧
    (∀ f, (foldBounds ncases nfolds).getLast? = some f → f.2 = ncases) ∧
    (∀ i f, (foldBounds ncases nfolds)[i]? = some f →
      f.1 ≤ ncases ∧ f.2 = f.1 + (ncases - f.1) / (nfolds - i)) := by
  have hq1 : ncases / nfolds * nfolds ≤ ncases - 0 := Nat.div_mul_le_self ncases nfolds
  have hq2 : ncases - 0 ≤ (ncases / nfolds + 1) * nfolds := by
    have := Nat.lt_succ_iff.mpr (Nat.le_refl (ncases / nfolds))
    exact Nat.le_of_lt ((Nat.div_lt_iff_lt_mul (by omega)).mp this)
  obtain ⟨a1, a2, _, _, a5, a6, a7, _, _⟩ :=
    foldLoop_spec ncases nfolds (ncases / nfolds) nfolds 0 0 (by omega) (by omega) hq1 hq2
  refine ⟨a1, fun f hf => ⟨(a2 f hf).2.1, (a2 f hf).2.2⟩, a5, a6, fun i f hf => ?_⟩
  have hmem : f ∈ foldLoop ncases nfolds nfolds 0 0 0 := List.getElem?_mem hf
  obtain ⟨_, b2, b3⟩ := a2 f hmem
  have hq0 := Nat.zero_le (ncases / nfolds)
  refine ⟨by omega, ?_⟩
  simpa using a7 i f hf

/-- What the records of a run say about the fold of each pass. -/
theorem xval_log_folds {α : Type} (ncases nfolds : Nat) (h1 : 1 ≤ nfolds)
    (log : List (XvalFold α))
    (hmap : log.map (fun r => (r.istart, r.istop)) = foldBounds ncases nfolds)
    (hidx : ∀ (i : Nat) (r : XvalFold α), log[i]? = some r → r.ifold = i) :
    ∀ r ∈ log, r.ifold < nfolds ∧ r.istart ≤ ncases ∧ r.istop ≤ ncases ∧
      r.istop = r.istart + (ncases - r.istart) / (nfolds - r.ifold) ∧
      (r.istop = r.istart + ncases / nfolds ∨ r.istop = r.istart + ncases / nfolds + 1) ∧
      (r.ifold = 0 → r.istart = 0) := by
  obtain ⟨a1, a2, a3, _, a5⟩ := foldBounds_spec ncases nfolds h1
  intro r hr
  obtain ⟨i, hi⟩ := List.getElem?_of_mem hr
  have hri := hidx i r hi
  have hf : (foldBounds ncases nfolds)[i]? = some (r.istart, r.istop) := by
    rw [← hmap, List.getElem?_map, hi]
    rfl
  have hlt : i < nfolds := by
    have := (List.getElem?_eq_some.mp hf).1
    omega
  obtain ⟨b1, b2⟩ := a5 i _ hf
  obtain ⟨c1, c2⟩ := a2 (r.istart, r.istop) (List.getElem?_mem hf)
  rw [hri]
  refine ⟨hlt, b1, c1, b2, c2, ?_⟩
  intro h0
  subst h0
  have hh : (foldBounds ncases nfolds).head? = some (r.istart, r.istop) := by
    rw [List.head?_eq_getElem?]
    exact hf
  exact a3 _ hh

section EvaluatorFacts

variable {α : Type} [LinearOrderedField α]

theorem xvalLoop_add (ncases nfolds nomit : Nat) (save : List (α × α)) (j m : Nat) :
    ∀ (ifold : Nat) (st st1 : XvalState α),
      xvalLoop ncases nfolds nomit save j ifold st = some st1 →
      xvalLoop ncases nfolds nomit save (j + m) ifold st =
        xvalLoop ncases nfolds nomit save m (ifold + j) st1 := by
  induction j with
  | zero =>
    intro ifold st st1 h
    rw [xvalLoop] at h
    rw [Option.some.inj h]
    simp
  | succ j ih =>
    intro ifold st st1 h
    have e : j + 1 + m = (j + m) + 1 := by omega
    rw [e, xvalLoop]
    rw [xvalLoop] at h
    revert h
    cases xvalFold ncases nfolds nomit save ifold st with
    | none => intro h; exact absurd h (by simp)
    | some s =>
      intro h
      dsimp only at h ⊢
      rw [ih (ifold + 1) s st1 h]
      congr 1
      omega

/-- In unbuffered mode every pass leaves the working buffer as it found it. -/
theorem xvalLoop_unbuffered_prefix (ncases nfolds : Nat) (orig : List (α × α))
    (hlo : orig.length = ncases) (k : Nat) :
    ∀ (ifold : Nat) (st : XvalState α), ifold + k ≤ nfolds → st.data = orig →
      st.n_done = st.istart → st.istart ≤ ncases →
      ∃ st1 : XvalState α, xvalLoop ncases nfolds 0 orig k ifold st = some st1 ∧
        st1.data = orig ∧ st1.n_done = st1.istart ∧ st1.istart ≤ ncases := by
  induction k with
  | zero =>
    intro ifold st _ hd hnd hle
    exact ⟨st, rfl, hd, hnd, hle⟩
  | succ k ih =>
    intro ifold st hK hd hnd hle
    obtain ⟨d, dback, ntrn, hfold, g1, _, _, g4, _⟩ :=
      xvalFold_spec ncases nfolds 0 orig ifold ((ncases - st.istart) / (nfolds - ifold)) st
        hlo (by rw [hd]; exact hlo) (fun _ => hd) hnd hle (by omega) rfl
        (fun h => absurd rfl h) (fun h => absurd rfl h)
    rw [xvalLoop, hfold]
    dsimp only
    exact ih (ifold + 1) _ (by omega) (g4 rfl) (by show st.n_done + _ = st.istart + _; rw [hnd])
      g1

theorem build_dataset_some (nprices lookback lookahead : Nat) (price : List α)
    (hlen : price.length = nprices) (hlb : 1 ≤ lookback)
    (hn : lookback + lookahead ≤ nprices) :
    ∃ data : List (α × α), build_dataset nprices lookback lookahead price = some data ∧
      data.length + lookback + lookahead = nprices + 1 := by
  refine ⟨_, dataLoop_eq lookback lookahead price _ (lookback - 1) [] (by omega) (by omega), ?_⟩
  simp only [List.nil_append, List.length_map, List.length_range]
  omega

/-- In buffered mode the copy of the first fold has the length
`ncases-istop-omit`; when that is negative the pass has no value. -/
theorem xval_first_copy_negative (ncases nfolds nomit : Nat) (data : List (α × α))
    (hlen : data.length = ncases) (h1 : 1 ≤ nfolds) (homit : nomit ≠ 0)
    (hneg : ncases < ncases / nfolds + nomit) :
    xval ncases nfolds nomit data = none := by
  obtain ⟨m, rfl⟩ : ∃ m, nfolds = m + 1 := ⟨nfolds - 1, by omega⟩
  have hn : ncases / (m + 1) ≤ ncases := Nat.div_le_self _ _
  have hprep : xvalPrepare ncases (m + 1) nomit data 0 data 0 (ncases / (m + 1)) = none := by
    unfold xvalPrepare
    dsimp only
    rw [if_pos homit, memcpy_eq _ _ _ _ _ (by omega) (by omega)]
    dsimp only
    rw [if_pos rfl]
    have hl : ((ncases : Int) - ((0 + ncases / (m + 1) : Nat) : Int) - (nomit : Int)) < 0 := by
      omega
    unfold memcpy
    rw [if_pos hl]
  unfold xval
  rw [xvalLoop]
  unfold xvalFold
  dsimp only
  rw [Nat.sub_zero, Nat.sub_zero, hprep]

theorem find_beta_some (ntrn : Int) (data : List (α × α)) (h : ntrn ≠ 0) :
    ∃ m : α × α, find_beta ntrn data = some m := by
  unfold find_beta
  rw [if_neg h]
  exact ⟨_, rfl⟩

/-- C17. In unbuffered mode with `2 <= nfolds <= ncases`, for every `j <= nfolds`
the first `j` passes of the loop succeed and leave the working buffer equal to
the original dataset (this is the buffer at the start of pass `j`, and after the
last pass when `j = nfolds`; the rest of the run continues from that state).
For every fold `[istart, istop)` that is not the last, `istop <= ncases -
n_in_fold`, and the swap loop applied twice gives back the dataset. -/
theorem xval_unbuffered_restores (ncases nfolds : Nat) (data : List (α × α))
    (hlen : data.length = ncases) (h1 : 2 ≤ nfolds) (h2 : nfolds ≤ ncases) :
    (∀ j, j ≤ nfolds → ∃ st : XvalState α,
      xvalLoop ncases nfolds 0 data j 0 ⟨data, 0, 0, [], []⟩ = some st ∧
      st.data = data ∧
      xval ncases nfolds 0 data = xvalLoop ncases nfolds 0 data (nfolds - j) j st) ∧
    (∀ i f, (foldBounds ncases nfolds)[i]? = some f → i < nfolds - 1 →
      f.2 ≤ ncases - (f.2 - f.1) ∧
      ∃ d : List (α × α),
        swapLoop ncases (f.2 - f.1) f.1 (f.2 - f.1) f.1 data = some d ∧
        swapLoop ncases (f.2 - f.1) f.1 (f.2 - f.1) f.1 d = some data) := by
  have _ := h2
  constructor
  · intro j hj
    obtain ⟨st, hst, hd, _, _⟩ := xvalLoop_unbuffered_prefix ncases nfolds data hlen j 0
      ⟨data, 0, 0, [], []⟩ (by omega) rfl rfl (Nat.zero_le _)
    refine ⟨st, hst, hd, ?_⟩
    have e : nfolds = j + (nfolds - j) := by omega
    have hx := xvalLoop_add ncases nfolds 0 data j (nfolds - j) 0 _ st hst
    rw [Nat.zero_add, ← e] at hx
    exact hx
  · intro i f hf hi
    obtain ⟨_, _, _, _, a5⟩ := foldBounds_spec ncases nfolds (by omega)
    obtain ⟨b1, b2⟩ := a5 i f hf
    have hq0 := Nat.zero_le ((ncases - f.1) / (nfolds - i))
    have e : f.2 - f.1 = (ncases - f.1) / (nfolds - i) := by omega
    obtain ⟨c1, _, c3⟩ := fold_size_facts ncases nfolds i f.1 (f.2 - f.1) b1 (by omega) e
    have hdisj := c3 hi
    obtain ⟨d, hd1, _, _, _, hd5⟩ := swap_out_spec ncases (f.2 - f.1) f.1 data hlen hdisj
      (by omega)
    exact ⟨by omega, d, hd1, hd5⟩

theorem xval_unbuffered_restores_witness :
    (([(1, 10), (2, -20), (-3, 30), (4, 40), (5, -50), (-6, 60), (7, 70)] :
        List (ℚ × ℚ)).length = 7 ∧ 2 ≤ 3 ∧ 3 ≤ 7) ∧
    ∀ j, j ≤ 3 → ∃ st : XvalState ℚ,
      xvalLoop 7 3 0 [(1, 10), (2, -20), (-3, 30), (4, 40), (5, -50), (-6, 60), (7, 70)] j 0
        ⟨[(1, 10), (2, -20), (-3, 30), (4, 40), (5, -50), (-6, 60), (7, 70)], 0, 0, [], []⟩
        = some st ∧
      st.data = [(1, 10), (2, -20), (-3, 30), (4, 40), (5, -50), (-6, 60), (7, 70)] ∧
      xval 7 3 0 [(1, 10), (2, -20), (-3, 30), (4, 40), (5, -50), (-6, 60), (7, 70)] =
        xvalLoop 7 3 0 [(1, 10), (2, -20), (-3, 30), (4, 40), (5, -50), (-6, 60), (7, 70)]
          (3 - j) j st :=
  ⟨⟨rfl, by decide, by decide⟩,
   (xval_unbuffered_restores 7 3
      [(1, 10), (2, -20), (-3, 30), (4, 40), (5, -50), (-6, 60), (7, 70)]
      rfl (by decide) (by decide)).1⟩

/-- C18, the code at the failing input. The tuple `nprices=16, lookback=2,
lookahead=1, ntrain=2, ntest=1, nfolds=2, omit=8` passes the checks of the
program and also has `nprices >= lookback+lookahead+ntrain+ntest+10`; the
dataset has 14 cases and the first fold is `[0, 7)`, so the copy of line 430 is
asked for `ncases-istop-omit = 14-7-8 = -1` cases and the pass has no value. -/
theorem xval_first_fold_copy_overruns :
    check_params 16 2 1 2 1 2 8 = Startup.proceed ∧
    (2 + 1 + 2 + 1 + 10 : Int) ≤ 16 ∧
    ∃ data : List (ℚ × ℚ),
      build_dataset 16 2 1 [0, 1, 3, 2, 5, 4, 6, 9, 8, 7, 11, 10, 12, 14, 13, 15] = some data ∧
      data.length = 14 ∧ clamp_nfolds 2 14 = 2 ∧
      (foldBounds 14 2).head? = some (0, 7) ∧
      ((14 : Nat) : Int) - ((7 : Nat) : Int) - ((8 : Nat) : Int) < 0 ∧
      xval 14 2 8 data = none := by
  refine ⟨by decide, by decide, ?_⟩
  obtain ⟨data, hd, hl⟩ := build_dataset_some 16 2 1
    ([0, 1, 3, 2, 5, 4, 6, 9, 8, 7, 11, 10, 12, 14, 13, 15] : List ℚ) rfl (by decide)
    (by decide)
  have hl14 : data.length = 14 := by omega
  exact ⟨data, hd, hl14, by decide, by decide, by decide,
    xval_first_copy_negative 14 2 8 data hl14 (by decide) (by decide) (by decide)⟩

/-- C19. For `1 <= nfolds <= ncases` the unbuffered run succeeds, reaches the
last fold, and there `ncases - n_in_fold - istart == 0`; for `ncases > ntrain`
and `ntest >= 1` the walkforward run succeeds (with any allowance above
`ncases` passes) and every tested case index
`istart + itest` is below `ncases`, which is the assertion
`test_ptr + 1 < data + ncols * ncases` with `ncols = 2`. -/
theorem assertions_hold (ncases nfolds ntrain ntest nomit : Nat) (data : List (α × α))
    (hlen : data.length = ncases) (h1 : 1 ≤ nfolds) (h2 : nfolds ≤ ncases)
    (h3 : ntrain < ncases) (h4 : 1 ≤ ntest) :
    (∃ st : XvalState α, xval ncases nfolds 0 data = some st ∧
      (∃ r ∈ st.log, r.ifold = nfolds - 1) ∧
      ∀ r ∈ st.log, r.ifold = nfolds - 1 →
        (ncases : Int) - ((r.istop - r.istart : Nat) : Int) - (r.istart : Int) = 0) ∧
    (∃ (OOS : List α) (log : List (WalkFold α)),
      (∀ fuel, ncases + 1 ≤ fuel →
        walkforward ncases ntrain ntest nomit data fuel = some (OOS, log)) ∧
      ∀ r ∈ log, ∀ itest, itest < r.nt →
        r.istart + itest < ncases ∧ 2 * (r.istart + itest) + 1 < 2 * ncases ∧
        ∃ c : α × α, data[r.istart + itest]? = some c) := by
  have _ := h2
  constructor
  · obtain ⟨st, a1, _, _, _, a5, a6, _⟩ := xval_run ncases nfolds 0 data hlen h1
      (fun h => absurd rfl h)
    have hfacts := xval_log_folds ncases nfolds h1 st.log a5 a6
    have hlog : st.log.length = nfolds := by
      have := congrArg List.length a5
      rw [List.length_map, (foldBounds_spec ncases nfolds h1).1] at this
      exact this
    refine ⟨st, a1, ?_, ?_⟩
    · have hlt : nfolds - 1 < st.log.length := by omega
      exact ⟨st.log[nfolds - 1], List.getElem_mem _,
        a6 _ _ (List.getElem?_eq_getElem hlt)⟩
    · intro r hr hlast
      obtain ⟨b1, b2, b3, b4, _⟩ := hfacts r hr
      have hk : nfolds - r.ifold = 1 := by omega
      rw [hk, Nat.div_one] at b4
      omega
  · obtain ⟨OOS, log, a1, _, a3, _, _, _, a7⟩ :=
      walkLoop_spec ncases ntrain ntest nomit data hlen h4 (ncases + 1) 0 [] [] (by omega)
        (by omega)
    simp only [List.nil_append, Nat.zero_add] at a1
    refine ⟨OOS, log, ?_, ?_⟩
    · intro fuel hf
      exact walkLoop_mono_le _ _ _ _ _ (ncases + 1) fuel hf _ _ _ _ _ a1
    · intro r hr itest hi
      obtain ⟨_, _, _, _, _, _, b7, _⟩ := a3 r hr
      obtain ⟨c, hc, _⟩ := a7 r hr itest hi
      exact ⟨by omega, by omega, c, hc⟩

theorem assertions_hold_witness :
    (([(1, 10), (2, -20), (-3, 30), (4, 40), (5, -50), (-6, 60), (7, 70)] :
        List (ℚ × ℚ)).length = 7 ∧ 1 ≤ 3 ∧ 3 ≤ 7 ∧ 2 < 7 ∧ 1 ≤ 2) ∧
    ∃ st : XvalState ℚ,
      xval 7 3 0 [(1, 10), (2, -20), (-3, 30), (4, 40), (5, -50), (-6, 60), (7, 70)] = some st ∧
      (∃ r ∈ st.log, r.ifold = 3 - 1) :=
  ⟨⟨rfl, by decide, by decide, by decide, by decide⟩,
   (assertions_hold 7 3 2 2 0
      [(1, 10), (2, -20), (-3, 30), (4, 40), (5, -50), (-6, 60), (7, 70)]
      rfl (by decide) (by decide) (by decide) (by decide)).1.imp fun _ h => ⟨h.1, h.2.1⟩⟩

/-! ## The training counts handed to `find_beta` -/

theorem xvalLoop_none_add (ncases nfolds nomit : Nat) (save : List (α × α)) (j m : Nat) :
    ∀ (ifold : Nat) (st : XvalState α),
      xvalLoop ncases nfolds nomit save j ifold st = none →
      xvalLoop ncases nfolds nomit save (j + m) ifold st = none := by
  induction j with
  | zero =>
    intro ifold st h
    rw [xvalLoop] at h
    exact absurd h (by simp)
  | succ j ih =>
    intro ifold st h
    have e : j + 1 + m = (j + m) + 1 := by omega
    rw [e, xvalLoop]
    rw [xvalLoop] at h
    revert h
    cases xvalFold ncases nfolds nomit save ifold st with
    | none => intro _; rfl
    | some s =>
      intro h
      dsimp only at h ⊢
      exact ih (ifold + 1) s h

/-- A pass that has a value moves `istart` and `n_done` by the size of its fold. -/
theorem xvalFold_bounds (ncases nfolds nomit : Nat) (save : List (α × α)) (ifold : Nat)
    (st s : XvalState α) (h : xvalFold ncases nfolds nomit save ifold st = some s) :
    s.istart = st.istart + (ncases - st.n_done) / (nfolds - ifold) ∧
      s.n_done = st.n_done + (ncases - st.n_done) / (nfolds - ifold) := by
  unfold xvalFold at h
  dsimp only at h
  split at h
  · exact absurd h (by simp)
  · split at h
    · exact absurd h (by simp)
    · split at h
      · exact absurd h (by simp)
      · rw [← Option.some.inj h]
        exact ⟨rfl, rfl⟩

/-- The folds of the passes that ran are the folds of `foldLoop`, and the passes
still to run continue from the state reached. -/
theorem xvalLoop_foldLoop (ncases nfolds nomit : Nat) (save : List (α × α)) (j m : Nat) :
    ∀ (ifold : Nat) (st st1 : XvalState α),
      xvalLoop ncases nfolds nomit save j ifold st = some st1 →
      foldLoop ncases nfolds (j + m) ifold st.istart st.n_done =
        foldLoop ncases nfolds j ifold st.istart st.n_done ++
          foldLoop ncases nfolds m (ifold + j) st1.istart st1.n_done := by
  induction j with
  | zero =>
    intro ifold st st1 h
    rw [xvalLoop] at h
    rw [Option.some.inj h]
    simp [foldLoop]
  | succ j ih =>
    intro ifold st st1 h
    have e : j + 1 + m = (j + m) + 1 := by omega
    rw [xvalLoop] at h
    revert h
    cases hs : xvalFold ncases nfolds nomit save ifold st with
    | none => intro h; exact absurd h (by simp)
    | some s =>
      intro h
      dsimp only at h
      obtain ⟨b1, b2⟩ := xvalFold_bounds _ _ _ _ _ _ _ hs
      have hi := ih (ifold + 1) s st1 h
      rw [b1, b2] at hi
      have e2 : ifold + 1 + j = ifold + (j + 1) := by omega
      rw [e2] at hi
      rw [e, foldLoop, foldLoop]
      rw [hi, List.cons_append]

/-- In buffered mode the copy of the last fold has the length `istart-omit`;
when that is negative the run has no value. -/
theorem xval_last_copy_negative (ncases nfolds nomit : Nat) (data : List (α × α))
    (h2 : 2 ≤ nfolds) (homit : nomit ≠ 0) (f : Nat × Nat)
    (hf : (foldBounds ncases nfolds).getLast? = some f) (hneg : f.1 < nomit) :
    xval ncases nfolds nomit data = none := by
  obtain ⟨m, rfl⟩ : ∃ m, nfolds = m + 1 := ⟨nfolds - 1, by omega⟩
  unfold xval
  cases hp : xvalLoop ncases (m + 1) nomit data m 0 ⟨data, 0, 0, [], []⟩ with
  | none => exact xvalLoop_none_add _ _ _ _ m 1 0 _ hp
  | some st1 =>
    have hb := xvalLoop_foldLoop ncases (m + 1) nomit data m 1 0 _ st1 hp
    dsimp only at hb
    have hlast : f.1 = st1.istart := by
      unfold foldBounds at hf
      rw [hb, foldLoop, foldLoop] at hf
      rw [List.getLast?_append, List.getLast?_singleton] at hf
      have := Option.some.inj hf
      rw [← this]
    rw [xvalLoop_add _ _ _ _ m 1 0 _ st1 hp, xvalLoop]
    have hprep : xvalPrepare ncases (m + 1) nomit data (0 + m) st1.data st1.istart
        ((ncases - st1.n_done) / (m + 1 - (0 + m))) = none := by
      unfold xvalPrepare
      dsimp only
      rw [if_pos homit]
      cases memcpy st1.data (ncases - (ncases - st1.n_done) / (m + 1 - (0 + m))) data
          st1.istart (((ncases - st1.n_done) / (m + 1 - (0 + m)) : Nat) : Int) with
      | none => rfl
      | some d1 =>
        dsimp only
        rw [if_neg (by omega), if_pos (by omega)]
        have hl : ((st1.istart : Int) - (nomit : Int)) < 0 := by omega
        unfold memcpy
        rw [if_pos hl]
    unfold xvalFold
    dsimp only
    rw [hprep]

/-- In buffered mode, when no copy has a negative length, a fold `[istart, istop)`
with `istart <= omit` and `ncases <= istop + omit` is fitted on zero cases. -/
theorem xval_zero_count (ncases nfolds nomit : Nat) (data : List (α × α))
    (hlen : data.length = ncases) (h1 : 1 ≤ nfolds) (homit : nomit ≠ 0)
    (hfirst : ncases / nfolds + nomit ≤ ncases)
    (hlast : 2 ≤ nfolds → ∀ f, (foldBounds ncases nfolds).getLast? = some f → nomit ≤ f.1)
    (i : Nat) (f : Nat × Nat) (hf : (foldBounds ncases nfolds)[i]? = some f)
    (hlo : f.1 ≤ nomit) (hhi : ncases ≤ f.2 + nomit) :
    ∃ st : XvalState α, xval ncases nfolds nomit data = some st ∧
      ∃ r ∈ st.log, r.ifold = i ∧ r.istart = f.1 ∧ r.istop = f.2 ∧ r.ntrn = 0 ∧
        r.model = none := by
  obtain ⟨_, _, g3, _, g5⟩ := foldBounds_spec ncases nfolds h1
  obtain ⟨st, a1, _, _, _, a5, a6, a7, _⟩ := xval_run ncases nfolds nomit data hlen h1
    (by
      intro _
      constructor
      · intro f0 hf0
        have e1 := g3 f0 hf0
        have e2 := (g5 0 f0 (by rw [← List.head?_eq_getElem?]; exact hf0)).2
        rw [e1] at e2
        simp only [Nat.sub_zero, Nat.zero_add] at e2
        have hq0 := Nat.zero_le (ncases / nfolds)
        omega
      · intro h2 fl hfl
        have := hlast h2 fl hfl
        omega)
  have hm : (st.log[i]?).map (fun r => (r.istart, r.istop)) = some f := by
    rw [← List.getElem?_map, a5]
    exact hf
  obtain ⟨r, hr, hrf⟩ := Option.map_eq_some'.mp hm
  have hmem : r ∈ st.log := List.getElem?_mem hr
  have e1 : r.istart = f.1 := by rw [← hrf]
  have e2 : r.istop = f.2 := by rw [← hrf]
  obtain ⟨_, _, c3, _, _, _, c7⟩ := a7 r hmem
  have hz : r.ntrn = 0 := by
    rw [(c7 homit).1]
    omega
  refine ⟨st, a1, r, hmem, a6 i r hr, e1, e2, hz, ?_⟩
  rw [c3, hz]
  unfold find_beta
  rw [if_pos rfl]

/-- With at least two folds and at least three cases, no fold is the whole
dataset. -/
theorem fold_not_whole (ncases nfolds : Nat) (h2 : 2 ≤ nfolds) (h3 : 3 ≤ ncases) :
    ∀ f ∈ foldBounds ncases nfolds, 0 < f.1 ∨ f.2 < ncases := by
  obtain ⟨_, g2, _⟩ := foldBounds_spec ncases nfolds (by omega)
  intro f hf
  obtain ⟨_, b2⟩ := g2 f hf
  have hq : ncases / nfolds * 2 ≤ ncases :=
    Nat.le_trans (Nat.mul_le_mul_left _ h2) (Nat.div_mul_le_self ncases nfolds)
  have hq0 := Nat.zero_le (ncases / nfolds)
  omega

/-- C20 fails as stated, in both evaluators; every tuple below satisfies every
validation rule. (1) `nprices=16, lookback=2, lookahead=1, ntrain=2, ntest=1,
nfolds=2, omit=2`: the dataset has 14 cases and the walkforward run calls
`find_beta` with `ntrn = ntrain - omit = 0`, which has no value. (2) `nprices=28,
lookback=2, lookahead=1, ntrain=14, ntest=1, nfolds=2, omit=13` (so `omit <
ntrain`): the dataset has 26 cases, the first fold is `[0, 13)`, its copy has
length `26-13-13 = 0`, and cross validation calls `find_beta` with `ntrn = 0`.
(3) `nprices=32, lookback=2, lookahead=1, ntrain=11, ntest=1, nfolds=3, omit=10`
(so `omit < ntrain`): the dataset has 30 cases, the interior fold `[10, 20)`
passes neither guard, and cross validation calls `find_beta` with `ntrn = 0`. -/
theorem find_beta_zero_count_counterexample :
    (check_params 16 2 1 2 1 2 2 = Startup.proceed ∧
      (2 + 1 + 2 + 1 + 10 : Int) ≤ 16 ∧
      ∃ data : List (ℚ × ℚ),
        build_dataset 16 2 1 [0, 1, 3, 2, 5, 4, 6, 9, 8, 7, 11, 10, 12, 14, 13, 15] = some data ∧
        data.length = 14 ∧
        ∃ (OOS : List ℚ) (log : List (WalkFold ℚ)),
          walkforward 14 2 1 2 data 14 = some (OOS, log) ∧
          ∃ r ∈ log, r.ntrn = 0 ∧ r.model = none) ∧
    (check_params 28 2 1 14 1 2 13 = Startup.proceed ∧
      (2 + 1 + 14 + 1 + 10 : Int) ≤ 28 ∧ (13 : Nat) < 14 ∧ clamp_nfolds 2 26 = 2 ∧
      ∃ data : List (ℚ × ℚ),
        build_dataset 28 2 1 [0, 1, 3, 2, 5, 4, 6, 9, 8, 7, 11, 10, 12, 14, 13, 15, 17, 16,
          18, 20, 19, 21, 23, 22, 24, 26, 25, 27] = some data ∧
        data.length = 26 ∧
        ∃ st : XvalState ℚ, xval 26 2 13 data = some st ∧
          ∃ r ∈ st.log, r.ifold = 0 ∧ r.istart = 0 ∧ r.istop = 13 ∧ r.ntrn = 0 ∧
            r.model = none) ∧
    (check_params 32 2 1 11 1 3 10 = Startup.proceed ∧
      (2 + 1 + 11 + 1 + 10 : Int) ≤ 32 ∧ (10 : Nat) < 11 ∧ clamp_nfolds 3 30 = 3 ∧
      ∃ data : List (ℚ × ℚ),
        build_dataset 32 2 1 [0, 1, 3, 2, 5, 4, 6, 9, 8, 7, 11, 10, 12, 14, 13, 15, 17, 16,
          18, 20, 19, 21, 23, 22, 24, 26, 25, 27, 29, 28, 30, 31] = some data ∧
        data.length = 30 ∧
        ∃ st : XvalState ℚ, xval 30 3 10 data = some st ∧
          ∃ r ∈ st.log, r.ifold = 1 ∧ r.istart = 10 ∧ r.istop = 20 ∧ r.ntrn = 0 ∧
            r.model = none) := by
  refine ⟨⟨by decide, by decide, ?_⟩, ⟨by decide, by decide, by decide, by decide, ?_⟩,
    ⟨by decide, by decide, by decide, by decide, ?_⟩⟩
  · obtain ⟨data, hd, hl⟩ := build_dataset_some 16 2 1
      ([0, 1, 3, 2, 5, 4, 6, 9, 8, 7, 11, 10, 12, 14, 13, 15] : List ℚ) rfl (by decide)
      (by decide)
    have hl14 : data.length = 14 := by omega
    obtain ⟨OOS, log, a1, _, a3, _, _, a6, _⟩ :=
      walkLoop_spec 14 2 1 2 data hl14 (by decide) 14 0 [] [] (by decide) (by decide)
    simp only [List.nil_append, Nat.zero_add] at a1 a6
    obtain ⟨r, hr, _⟩ := a6 0 (by decide)
    obtain ⟨_, _, b3, b4, _⟩ := a3 r hr
    refine ⟨data, hd, hl14, OOS, log, a1, r, hr, ?_, ?_⟩
    · rw [b3]; decide
    · rw [b4]
      unfold find_beta
      rw [if_pos (by decide)]
  · obtain ⟨data, hd, hl⟩ := build_dataset_some 28 2 1
      ([0, 1, 3, 2, 5, 4, 6, 9, 8, 7, 11, 10, 12, 14, 13, 15, 17, 16,
        18, 20, 19, 21, 23, 22, 24, 26, 25, 27] : List ℚ) rfl (by decide) (by decide)
    have hl26 : data.length = 26 := by omega
    have hlastf : (foldBounds 26 2).getLast? = some (13, 26) := by decide
    exact ⟨data, hd, hl26, xval_zero_count 26 2 13 data hl26 (by decide) (by decide)
      (by decide) (fun _ f hf => by rw [hlastf] at hf; cases hf; decide)
      0 (0, 13) (by decide) (by decide) (by decide)⟩
  · obtain ⟨data, hd, hl⟩ := build_dataset_some 32 2 1
      ([0, 1, 3, 2, 5, 4, 6, 9, 8, 7, 11, 10, 12, 14, 13, 15, 17, 16,
        18, 20, 19, 21, 23, 22, 24, 26, 25, 27, 29, 28, 30, 31] : List ℚ) rfl (by decide)
      (by decide)
    have hl30 : data.length = 30 := by omega
    have hlastf : (foldBounds 30 3).getLast? = some (20, 30) := by decide
    exact ⟨data, hd, hl30, xval_zero_count 30 3 10 data hl30 (by decide) (by decide)
      (by decide) (fun _ f hf => by rw [hlastf] at hf; cases hf; decide)
      1 (10, 20) (by decide) (by decide) (by decide)⟩

/-- C20, amended. For a tuple that satisfies the validation rules (so the
dataset has `ncases = nprices - lookback - lookahead + 1` cases and `nfolds` is
reduced to at most `ncases`): (1) the walkforward run returns and makes at least
one call of `find_beta`, every call with `ntrn = ntrain - omit`; every call has
`ntrn >= 1` and returns a value when `omit < ntrain`, and only then. (2) When
every fold `[istart, istop)` has `omit < istart` or `istop + omit < ncases`, the
cross validation run returns, makes one call per fold, and every call has
`ntrn >= 1` and returns a value. (3) Whenever the cross validation run returns
with every `ntrn >= 1`, every fold has `omit < istart` or `istop + omit <
ncases`. (4) With `omit = 0` that condition holds on every fold. -/
theorem find_beta_counts (nprices lookback lookahead ncases ntrain ntest nfolds nomit : Nat)
    (data : List (α × α)) (hlb : 2 ≤ lookback) (hla : 1 ≤ lookahead) (hntrain : 2 ≤ ntrain)
    (hntest : 1 ≤ ntest) (hnf : 2 ≤ nfolds)
    (hnp : lookback + lookahead + ntrain + ntest + 10 ≤ nprices)
    (hnc : ncases + lookback + lookahead = nprices + 1) (hlen : data.length = ncases) :
    (∃ (OOS : List α) (log : List (WalkFold α)),
      (∀ fuel, ncases ≤ fuel →
        walkforward ncases ntrain ntest nomit data fuel = some (OOS, log)) ∧
      log ≠ [] ∧
      (∀ r ∈ log, r.ntrn = (ntrain : Int) - (nomit : Int)) ∧
      (nomit < ntrain → ∀ r ∈ log, 1 ≤ r.ntrn ∧ ∃ m : α × α, r.model = some m) ∧
      ((∀ r ∈ log, 1 ≤ r.ntrn) → nomit < ntrain)) ∧
    ((∀ f ∈ foldBounds ncases (clamp_nfolds nfolds ncases),
        nomit < f.1 ∨ f.2 + nomit < ncases) →
      ∃ st : XvalState α,
        xval ncases (clamp_nfolds nfolds ncases) nomit data = some st ∧
        st.log.length = clamp_nfolds nfolds ncases ∧
        ∀ r ∈ st.log, 1 ≤ r.ntrn ∧ ∃ m : α × α, r.model = some m) ∧
    ((∃ st : XvalState α,
        xval ncases (clamp_nfolds nfolds ncases) nomit data = some st ∧
        ∀ r ∈ st.log, 1 ≤ r.ntrn) →
      ∀ f ∈ foldBounds ncases (clamp_nfolds nfolds ncases),
        nomit < f.1 ∨ f.2 + nomit < ncases) ∧
    (nomit = 0 → ∀ f ∈ foldBounds ncases (clamp_nfolds nfolds ncases),
      nomit < f.1 ∨ f.2 + nomit < ncases) := by
  have _ := hlb
  have _ := hla
  have hn14 : 14 ≤ ncases := by omega
  obtain ⟨nf, hnf_def, hnf2, hnfc⟩ : ∃ nf, clamp_nfolds nfolds ncases = nf ∧ 2 ≤ nf ∧
      nf ≤ ncases := by
    refine ⟨_, rfl, ?_, ?_⟩ <;> unfold clamp_nfolds <;> split <;> omega
  rw [hnf_def]
  obtain ⟨f1, f2, f3, f4, f5⟩ := foldBounds_spec ncases nf (by omega)
  have hq0 := Nat.zero_le (ncases / nf)
  have hwhole := fold_not_whole ncases nf hnf2 (by omega)
  refine ⟨?_, ?_, ?_, ?_⟩
  · obtain ⟨OOS, log, a1, _, a3, _, _, a6, _⟩ :=
      walkLoop_spec ncases ntrain ntest nomit data hlen hntest ncases 0 [] [] (by omega)
        (by omega)
    simp only [List.nil_append, Nat.zero_add] at a1 a6
    obtain ⟨r0, hr0, _⟩ := a6 0 (by omega)
    refine ⟨OOS, log, ?_, List.ne_nil_of_mem hr0, fun r hr => (a3 r hr).2.2.1, ?_, ?_⟩
    · intro fuel hf
      exact walkLoop_mono_le _ _ _ _ _ ncases fuel hf _ _ _ _ _ a1
    · intro homit r hr
      obtain ⟨_, _, b3, b4, _⟩ := a3 r hr
      refine ⟨by rw [b3]; omega, ?_⟩
      rw [b4]
      exact find_beta_some _ _ (by omega)
    · intro hall
      have h1 := hall r0 hr0
      rw [(a3 r0 hr0).2.2.1] at h1
      omega
  · intro hcond
    obtain ⟨st, a1, _, _, _, a5, a6, a7, _⟩ := xval_run ncases nf nomit data hlen (by omega)
      (by
        intro _
        constructor
        · intro f hf
          have hm : f ∈ foldBounds ncases nf := List.mem_of_mem_head? hf
          have c1 := f3 f hf
          have c2 := hcond f hm
          omega
        · intro _ f hf
          have hm : f ∈ foldBounds ncases nf := List.mem_of_mem_getLast? hf
          have c1 := f4 f hf
          have c2 := hcond f hm
          omega)
    have hll : st.log.length = nf := by
      rw [← f1, ← a5, List.length_map]
    refine ⟨st, a1, hll, fun r hr => ?_⟩
    have hmem : (r.istart, r.istop) ∈ foldBounds ncases nf := by
      rw [← a5]
      exact List.mem_map_of_mem _ hr
    have hc := hcond _ hmem
    dsimp only at hc
    obtain ⟨c1, c2, c3, _, _, c6, c7⟩ := a7 r hr
    have hpos : 1 ≤ r.ntrn := by
      by_cases h0 : nomit = 0
      · rw [(c6 h0).1]
        omega
      · rw [(c7 h0).1]
        omega
    refine ⟨hpos, ?_⟩
    rw [c3]
    exact find_beta_some _ _ (by omega)
  · rintro ⟨st, hst, hall⟩ f hf
    by_cases h0 : nomit = 0
    · have := hwhole f hf
      omega
    by_contra hno
    have hlo : f.1 ≤ nomit := by omega
    have hhi : ncases ≤ f.2 + nomit := by omega
    by_cases hA : ncases < ncases / nf + nomit
    · rw [xval_first_copy_negative ncases nf nomit data hlen (by omega) h0 hA] at hst
      exact absurd hst (by simp)
    by_cases hB : ∃ fl, (foldBounds ncases nf).getLast? = some fl ∧ fl.1 < nomit
    · obtain ⟨fl, hfl, hlt⟩ := hB
      rw [xval_last_copy_negative ncases nf nomit data hnf2 h0 fl hfl hlt] at hst
      exact absurd hst (by simp)
    obtain ⟨i, hi⟩ := List.getElem?_of_mem hf
    obtain ⟨st1, hst1, r, hr, _, _, _, hz, _⟩ :=
      xval_zero_count ncases nf nomit data hlen (by omega) h0 (by omega)
        (fun _ fl hfl => by
          by_contra hlt
          exact hB ⟨fl, hfl, by omega⟩)
        i f hi hlo hhi
    rw [hst] at hst1
    rw [Option.some.inj hst1] at hall
    have := hall r hr
    omega
  · intro h0 f hf
    have := hwhole f hf
    omega

theorem find_beta_counts_witness :
    (2 ≤ 2 ∧ 1 ≤ 1 ∧ 2 ≤ 5 ∧ 1 ≤ 1 ∧ 2 ≤ 2 ∧ 2 + 1 + 5 + 1 + 10 ≤ 19 ∧ 17 + 2 + 1 = 19 + 1 ∧
      (List.replicate 17 ((0 : ℚ), (0 : ℚ))).length = 17) ∧
    (∀ f ∈ foldBounds 17 (clamp_nfolds 2 17), 4 < f.1 ∨ f.2 + 4 < 17) ∧
    ∃ st : XvalState ℚ,
      xval 17 (clamp_nfolds 2 17) 4 (List.replicate 17 ((0 : ℚ), (0 : ℚ))) = some st ∧
      st.log.length = clamp_nfolds 2 17 ∧
      ∀ r ∈ st.log, 1 ≤ r.ntrn ∧ ∃ m : ℚ × ℚ, r.model = some m :=
  ⟨⟨by decide, by decide, by decide, by decide, by decide, by decide, by decide,
      List.length_replicate _ _⟩,
   by decide,
   (find_beta_counts 19 2 1 17 5 1 2 4 (List.replicate 17 ((0 : ℚ), (0 : ℚ)))
      (by decide) (by decide) (by decide) (by decide) (by decide) (by decide) (by decide)
      (List.length_replicate _ _)).2.1 (by decide)⟩

end EvaluatorFacts

end XvW
